import Mathlib

/-!
The text codec of `ByteSize` (package `datasize`).

A shallow embedding of `datasize.go` (package `datasize`): the unit table, the
canonical formatter `ByteSize.String`, `ByteSize.HumanReadable`,
`ByteSize.MarshalText` and the parser `ByteSize.UnmarshalText`, followed by
what is proved about them.

Conventions of the embedding
* a `uint64` is a `Nat`; every operation that can wrap in Go is written with an
  explicit `% 2 ^ 64`;
* a Go `[]byte` / `string` is a `List Nat` of byte values (each below 256); the
  text a list stands for is given in a comment next to it;
* `goto Overflow` / `goto SyntaxError` / `break ParseLoop` are the three
  constructors of `LoopExit`;
* the receiver `*b` is passed in as the prior value and the value stored on
  return is the first component of the result.
-/

/-- The Go type `ByteSize` (a `uint64`). -/
abbrev ByteSize := Nat

/-- Wrap-around of 64-bit unsigned arithmetic. -/
def wrap64 (n : Nat) : Nat := n % 2 ^ 64

/-- Go constant `B`. -/
def B : ByteSize := 1
/-- Go constant `KB = B << 10`. -/
def KB : ByteSize := wrap64 (B <<< 10)
/-- Go constant `MB = KB << 10`. -/
def MB : ByteSize := wrap64 (KB <<< 10)
/-- Go constant `GB = MB << 10`. -/
def GB : ByteSize := wrap64 (MB <<< 10)
/-- Go constant `TB = GB << 10`. -/
def TB : ByteSize := wrap64 (GB <<< 10)
/-- Go constant `PB = TB << 10`. -/
def PB : ByteSize := wrap64 (TB <<< 10)
/-- Go constant `EB = PB << 10`. -/
def EB : ByteSize := wrap64 (PB <<< 10)

/-- Go constant `fnUnmarshalText`. -/
def fnUnmarshalText : String := "UnmarshalText"
/-- Go constant `maxUint64 = (1 << 64) - 1`. -/
def maxUint64 : Nat := (1 <<< 64) - 1
/-- Go constant `cutoff = maxUint64 / 10`. -/
def cutoff : Nat := maxUint64 / 10

/-- The two error values of package `strconv` that the parser returns. -/
inductive ErrKind where
  | ErrRange
  | ErrSyntax
deriving DecidableEq, Repr

/-- The Go struct `strconv.NumError{Func, Num, Err}`. -/
structure NumError where
  Func : String
  Num : List Nat
  Err : ErrKind
deriving DecidableEq, Repr

/-- The loop of `fmt` that writes an unsigned integer in base 10, most
significant digit first: `fuel` bounds the number of digits written. -/
def decimalAux : Nat → Nat → List Nat → List Nat
  | 0, _, acc => acc
  | fuel + 1, n, acc =>
    if n < 10 then (48 + n) :: acc
    else decimalAux fuel (n / 10) ((48 + n % 10) :: acc)

/-- The verb `%d` of `fmt.Sprintf` on a `uint64`: its decimal digits as ASCII
bytes; a 64-bit value has at most 20 of them. -/
def decimal (n : Nat) : List Nat := decimalAux 20 n []

/-- Method `String` of `ByteSize`: the canonical text. -/
def ByteSize.String (b : ByteSize) : List Nat :=
  if b = 0 then [48, 66]                                   -- "0B"
  else if b % EB = 0 then decimal (b / EB) ++ [69, 66]     -- "%dEB"
  else if b % PB = 0 then decimal (b / PB) ++ [80, 66]     -- "%dPB"
  else if b % TB = 0 then decimal (b / TB) ++ [84, 66]     -- "%dTB"
  else if b % GB = 0 then decimal (b / GB) ++ [71, 66]     -- "%dGB"
  else if b % MB = 0 then decimal (b / MB) ++ [77, 66]     -- "%dMB"
  else if b % KB = 0 then decimal (b / KB) ++ [75, 66]     -- "%dKB"
  else decimal b ++ [66]                                   -- "%dB"

/-- Method `HumanReadable` of `ByteSize`. The number before the unit is written
by the verb `%f` from a `float64` quotient (methods `EBytes` to `KBytes`); that
text is floating point and is not modelled: `fmtF b u` stands for what
`fmt.Sprintf("%f", float64(b) / float64(u))` writes, whatever it is. -/
def ByteSize.HumanReadable (fmtF : ByteSize → ByteSize → List Nat) (b : ByteSize) : List Nat :=
  if b > EB then fmtF b EB ++ [46, 49, 32, 69, 66]        -- "%f.1 EB"
  else if b > PB then fmtF b PB ++ [46, 49, 32, 80, 66]   -- "%f.1 PB"
  else if b > TB then fmtF b TB ++ [46, 49, 32, 84, 66]   -- "%f.1 TB"
  else if b > GB then fmtF b GB ++ [46, 49, 32, 71, 66]   -- "%f.1 GB"
  else if b > MB then fmtF b MB ++ [46, 49, 32, 77, 66]   -- "%f.1 MB"
  else if b > KB then fmtF b KB ++ [46, 49, 32, 75, 66]   -- "%f.1 KB"
  else decimal b ++ [32, 66]                              -- "%d B"

/-- Method `HR` of `ByteSize`: it calls `HumanReadable`. -/
def ByteSize.HR (fmtF : ByteSize → ByteSize → List Nat) (b : ByteSize) : List Nat :=
  ByteSize.HumanReadable fmtF b

/-- Method `MarshalText` of `ByteSize`: the bytes of `String` and a nil error. -/
def ByteSize.MarshalText (b : ByteSize) : List Nat × Option NumError :=
  (ByteSize.String b, none)

/-- The width in bytes of the white-space rune that starts the byte list, or 0
when the list does not start with one. White space is what `unicode.IsSpace`
accepts: the six ASCII characters tab, newline, vertical tab, form feed,
carriage return and space, then U+0085, U+00A0, U+1680, U+2000 to U+200A,
U+2028, U+2029, U+202F, U+205F and U+3000 in their UTF-8 encodings. -/
def spaceWidth : List Nat → Nat
  | [] => 0
  | c :: rest =>
    if c = 9 ∨ c = 10 ∨ c = 11 ∨ c = 12 ∨ c = 13 ∨ c = 32 then 1
    else if c = 0xC2 then
      match rest with
      | d :: _ => if d = 0x85 ∨ d = 0xA0 then 2 else 0
      | [] => 0
    else if c = 0xE1 then
      match rest with
      | d :: e :: _ => if d = 0x9A ∧ e = 0x80 then 3 else 0
      | _ => 0
    else if c = 0xE2 then
      match rest with
      | d :: e :: _ =>
        if d = 0x80 ∧ ((0x80 ≤ e ∧ e ≤ 0x8A) ∨ e = 0xA8 ∨ e = 0xA9 ∨ e = 0xAF) then 3
        else if d = 0x81 ∧ e = 0x9F then 3
        else 0
      | _ => 0
    else if c = 0xE3 then
      match rest with
      | d :: e :: _ => if d = 0x80 ∧ e = 0x80 then 3 else 0
      | _ => 0
    else 0

/-- The width in bytes of the white-space rune that ends the byte list, given
the list reversed (last byte first), or 0 when it does not end with one. -/
def spaceWidthRev : List Nat → Nat
  | [] => 0
  | c :: rest =>
    if c = 9 ∨ c = 10 ∨ c = 11 ∨ c = 12 ∨ c = 13 ∨ c = 32 then 1
    else
      match rest with
      | d :: rest2 =>
        if d = 0xC2 ∧ (c = 0x85 ∨ c = 0xA0) then 2
        else
          match rest2 with
          | e :: _ => if spaceWidth [e, d, c] = 3 then 3 else 0
          | [] => 0
      | [] => 0

/-- Removal of the leading white-space runes (`strings.TrimLeftFunc` with
`unicode.IsSpace`); `fuel` bounds the number of runes removed. -/
def trimLeftSpace : Nat → List Nat → List Nat
  | 0, s => s
  | fuel + 1, s =>
    if spaceWidth s = 0 then s else trimLeftSpace fuel (s.drop (spaceWidth s))

/-- Removal of the trailing white-space runes (`strings.TrimRightFunc` with
`unicode.IsSpace`), on the reversed byte list. -/
def trimRightSpaceRev : Nat → List Nat → List Nat
  | 0, r => r
  | fuel + 1, r =>
    if spaceWidthRev r = 0 then r else trimRightSpaceRev fuel (r.drop (spaceWidthRev r))

/-- The library function `strings.TrimSpace`: the string without its leading
and trailing white space, as defined by Unicode. -/
def TrimSpace (s : List Nat) : List Nat :=
  (trimRightSpaceRev s.length (trimLeftSpace s.length s).reverse).reverse

/-- How the block labelled `ParseLoop` is left. -/
inductive LoopExit where
  /-- `goto Overflow` -/
  | Overflow
  /-- `goto SyntaxError` -/
  | SyntaxError
  /-- The loop ended (its condition failed or `break ParseLoop`) with these
  values of `val` and `i`. -/
  | Break (val : Nat) (i : Nat)
deriving DecidableEq, Repr

/-- The loop labelled `ParseLoop` of `UnmarshalText`, started at index `i`
with accumulator `val`; the first argument is `t[i:]`. -/
def ParseLoop : List Nat → Nat → Nat → LoopExit
  | [], val, i => .Break val i
  | c :: rest, val, i =>
    if 48 ≤ c ∧ c ≤ 57 then
      if val > cutoff then .Overflow
      else
        let d := c - 48
        let val10 := wrap64 (val * 10)
        if val10 > wrap64 (val10 + d) then .Overflow
        else ParseLoop rest (wrap64 (val10 + d)) (i + 1)
    else
      if i = 0 then .SyntaxError
      else .Break val i

/-- The code at label `Overflow`: store `maxUint64`, return a range error. -/
def atOverflow (t0 : List Nat) : ByteSize × Option NumError :=
  (maxUint64, some ⟨fnUnmarshalText, t0, .ErrRange⟩)

/-- The code at label `SyntaxError`: store 0, return a syntax error. -/
def atSyntaxError (t0 : List Nat) : ByteSize × Option NumError :=
  (0, some ⟨fnUnmarshalText, t0, .ErrSyntax⟩)

/-- One multiplying case of the unit switch: the bound check, then
`val *= unit` and the two statements after the switch. -/
def scaleBy (t0 : List Nat) (val : Nat) (u : ByteSize) : ByteSize × Option NumError :=
  if val > maxUint64 / u then atOverflow t0
  else (wrap64 (val * u), none)

/-- The `switch unit` statement of `UnmarshalText` with the two statements
that follow it (`*b = ByteSize(val); return nil`): `t0` is the saved input and
`val` the accumulator left by the loop. -/
def unitSwitch (t0 : List Nat) (val : Nat) (unit : List Nat) : ByteSize × Option NumError :=
  -- case "", "B", "b"
  if unit ∈ [[], [66], [98]] then (val, none)
  -- case "K", "KB", "k", "kb", "kB"
  else if unit ∈ [[75], [75, 66], [107], [107, 98], [107, 66]] then scaleBy t0 val KB
  -- case "M", "MB", "m", "mb", "mB"
  else if unit ∈ [[77], [77, 66], [109], [109, 98], [109, 66]] then scaleBy t0 val MB
  -- case "G", "GB", "g", "gb", "gB"
  else if unit ∈ [[71], [71, 66], [103], [103, 98], [103, 66]] then scaleBy t0 val GB
  -- case "T", "TB", "t", "tb", "tB"
  else if unit ∈ [[84], [84, 66], [116], [116, 98], [116, 66]] then scaleBy t0 val TB
  -- case "P", "PB", "p", "pb", "pB"
  else if unit ∈ [[80], [80, 66], [112], [112, 98], [112, 66]] then scaleBy t0 val PB
  -- case "E", "EB", "e", "eb", "eB"
  else if unit ∈ [[69], [69, 66], [101], [101, 98], [101, 66]] then scaleBy t0 val EB
  -- default
  else atSyntaxError t0

/-- Method `UnmarshalText` of `*ByteSize`: `b` is the value stored in the
receiver before the call, `t` the input; the result is the value stored in the
receiver on return and the returned error (`none` for nil). -/
def ByteSize.UnmarshalText (_b : ByteSize) (t : List Nat) : ByteSize × Option NumError :=
  let t0 := t
  match ParseLoop t 0 0 with
  | .Overflow => atOverflow t0
  | .SyntaxError => atSyntaxError t0
  | .Break val i => unitSwitch t0 val (TrimSpace (t.drop i))

/-! ## Vocabulary of the specification -/

/-- An ASCII digit, `0` to `9`. -/
def isDigit (c : Nat) : Bool := decide (48 ≤ c) && decide (c ≤ 57)

/-- ASCII white space: tab, newline, vertical tab, form feed, carriage return
and space. -/
def isAsciiSpace (c : Nat) : Bool :=
  c == 9 || c == 10 || c == 11 || c == 12 || c == 13 || c == 32

/-- The digit string `D` read in base 10 after the number `val`. -/
def foldDigits (val : Nat) (D : List Nat) : Nat :=
  D.foldl (fun acc c => acc * 10 + (c - 48)) val

/-- The natural number that a run of ASCII digits denotes (leading zeros
allowed, the empty run denotes 0). -/
def denote (D : List Nat) : Nat := foldDigits 0 D

/-- The five accepted spellings of a unit whose letter is `X` in upper case and
`x` in lower case: `X`, `XB`, `x`, `xb`, `xB`. -/
def spellings (X x : Nat) : List (List Nat) :=
  [[X], [X, 66], [x], [x, 98], [x, 66]]

/-- The 33 recognised unit tokens with their multipliers: the empty token, `B`
and `b` with 1, and the five spellings of K, M, G, T, P, E with
`1024 ^ 1` to `1024 ^ 6`. -/
def recognised : List (List Nat × Nat) :=
  [([], 1), ([66], 1), ([98], 1)]
  ++ (spellings 75 107).map (fun T => (T, 1024 ^ 1))
  ++ (spellings 77 109).map (fun T => (T, 1024 ^ 2))
  ++ (spellings 71 103).map (fun T => (T, 1024 ^ 3))
  ++ (spellings 84 116).map (fun T => (T, 1024 ^ 4))
  ++ (spellings 80 112).map (fun T => (T, 1024 ^ 5))
  ++ (spellings 69 101).map (fun T => (T, 1024 ^ 6))

/-- The canonical name of the unit `1024 ^ k`: B, KB, MB, GB, TB, PB, EB. -/
def unitName : Nat → List Nat
  | 0 => [66]
  | 1 => [75, 66]
  | 2 => [77, 66]
  | 3 => [71, 66]
  | 4 => [84, 66]
  | 5 => [80, 66]
  | _ => [69, 66]

/-- The tokens of the table, without their multipliers. -/
def tokens : List (List Nat) := recognised.map Prod.fst

/-- A byte string whose first and last bytes, if any, are ASCII and not white
space. -/
def asciiEnds (T : List Nat) : Prop :=
  (∀ c ∈ T.head?, c < 128 ∧ isAsciiSpace c = false) ∧
  (∀ c ∈ T.getLast?, c < 128 ∧ isAsciiSpace c = false)

/-- The longest leading run of ASCII digits of the input. -/
def digitRun (t : List Nat) : List Nat := t.takeWhile isDigit

/-- The input after its longest leading run of ASCII digits. -/
def afterDigits (t : List Nat) : List Nat := t.dropWhile isDigit

/-- The kind of outcome of a call: `none` for a nil error, otherwise the kind
of the error returned. -/
def errKind (r : ByteSize × Option NumError) : Option ErrKind := r.2.map NumError.Err

/-- The letter `c` in the other case; a byte that is not an ASCII letter is
left as it is. -/
def flipCase (c : Nat) : Nat :=
  if 65 ≤ c ∧ c ≤ 90 then c + 32
  else if 97 ≤ c ∧ c ≤ 122 then c - 32
  else c

/-- All the strings obtained from `T` by changing the case of any of its
letters (`T` itself included). -/
def caseVariants : List Nat → List (List Nat)
  | [] => [[]]
  | c :: rest => (caseVariants rest).flatMap (fun v => [c :: v, flipCase c :: v])

/-- The six spellings with an upper-case unit letter followed by a lower-case
`b`: `Kb`, `Mb`, `Gb`, `Tb`, `Pb`, `Eb`. -/
def upperLower : List (List Nat) :=
  [[75, 98], [77, 98], [71, 98], [84, 98], [80, 98], [69, 98]]

/-! ## The unit table -/

theorem B_eq : B = 1 := rfl
theorem KB_eq : KB = 1024 := by decide
theorem MB_eq : MB = 1024 ^ 2 := by decide
theorem GB_eq : GB = 1024 ^ 3 := by decide
theorem TB_eq : TB = 1024 ^ 4 := by decide
theorem PB_eq : PB = 1024 ^ 5 := by decide
theorem EB_eq : EB = 1024 ^ 6 := by decide
theorem maxUint64_eq : maxUint64 = 2 ^ 64 - 1 := by decide
theorem cutoff_eq : cutoff = 1844674407370955161 := by decide

/-! ## The digit loop -/

theorem isDigit_iff (c : Nat) : isDigit c = true ↔ 48 ≤ c ∧ c ≤ 57 := by
  simp [isDigit]

theorem foldDigits_nil (val : Nat) : foldDigits val [] = val := rfl

theorem foldDigits_cons (val c : Nat) (D : List Nat) :
    foldDigits val (c :: D) = foldDigits (val * 10 + (c - 48)) D := rfl

theorem foldDigits_append (val : Nat) (D E : List Nat) :
    foldDigits val (D ++ E) = foldDigits (foldDigits val D) E := by
  simp [foldDigits, List.foldl_append]

theorem le_foldDigits (D : List Nat) : ∀ val, val ≤ foldDigits val D := by
  induction D with
  | nil => intro val; exact Nat.le_refl _
  | cons c D ih =>
    intro val
    rw [foldDigits_cons]
    have := ih (val * 10 + (c - 48))
    omega

/-- The loop on a run of digits: the accumulator follows the number read so
far exactly, and the loop leaves by `Overflow` as soon as that number does not
fit in 64 bits. -/
theorem ParseLoop_digits (D rest : List Nat) :
    ∀ (val i : Nat), (∀ c ∈ D, isDigit c = true) → val < 2 ^ 64 →
      ParseLoop (D ++ rest) val i =
        if foldDigits val D < 2 ^ 64 then ParseLoop rest (foldDigits val D) (i + D.length)
        else .Overflow := by
  induction D with
  | nil =>
    intro val i _ hval
    rw [foldDigits_nil, if_pos hval, List.nil_append, List.length_nil, Nat.add_zero]
  | cons c D ih =>
    intro val i hD hval
    have hc : 48 ≤ c ∧ c ≤ 57 := (isDigit_iff c).1 (hD c (List.mem_cons_self _ _))
    have hD2 : ∀ x ∈ D, isDigit x = true := fun x hx => hD x (List.mem_cons_of_mem _ hx)
    have hmono := le_foldDigits D (val * 10 + (c - 48))
    rw [foldDigits_cons, List.cons_append]
    simp only [ParseLoop, hc, and_self, if_true, cutoff_eq, wrap64]
    by_cases h1 : val > 1844674407370955161
    · have : ¬ foldDigits (val * 10 + (c - 48)) D < 2 ^ 64 := by omega
      rw [if_pos h1, if_neg this]
    · simp only [h1, if_false]
      have e1 : val * 10 % 2 ^ 64 = val * 10 := Nat.mod_eq_of_lt (by omega)
      rw [e1]
      by_cases h2 : val * 10 + (c - 48) < 2 ^ 64
      · have e2 : (val * 10 + (c - 48)) % 2 ^ 64 = val * 10 + (c - 48) := Nat.mod_eq_of_lt h2
        rw [e2]
        have h3 : ¬ val * 10 > val * 10 + (c - 48) := by omega
        simp only [h3, if_false]
        rw [ih _ _ hD2 h2, List.length_cons, Nat.add_assoc i 1, Nat.add_comm 1]
      · have h3 : val * 10 > (val * 10 + (c - 48)) % 2 ^ 64 := by omega
        have : ¬ foldDigits (val * 10 + (c - 48)) D < 2 ^ 64 := by omega
        rw [if_pos h3, if_neg this]

/-- The loop stops at the end of the input and at a byte that is not a digit. -/
theorem ParseLoop_stop (rest : List Nat) (val i : Nat) (hi : i ≠ 0)
    (hrest : ∀ c ∈ rest.head?, isDigit c = false) : ParseLoop rest val i = .Break val i := by
  cases rest with
  | nil => rfl
  | cons c r =>
    have hc : ¬ (48 ≤ c ∧ c ≤ 57) := by
      have := hrest c (by simp)
      intro h
      rw [(isDigit_iff c).2 h] at this
      exact Bool.noConfusion this
    simp [ParseLoop, hc, hi]

/-- The head of the input decides the two ways of leaving the loop at index 0. -/
theorem ParseLoop_nondigit (c : Nat) (rest : List Nat) (val : Nat) (hc : isDigit c = false) :
    ParseLoop (c :: rest) val 0 = .SyntaxError := by
  have hc2 : ¬ (48 ≤ c ∧ c ≤ 57) := by
    intro h
    rw [(isDigit_iff c).2 h] at hc
    exact Bool.noConfusion hc
  simp [ParseLoop, hc2]

/-! ## The decimal writer -/

theorem foldDigits_snoc (val c : Nat) (D : List Nat) :
    foldDigits val (D ++ [c]) = foldDigits val D * 10 + (c - 48) := by
  rw [foldDigits_append, foldDigits_cons, foldDigits_nil]

theorem decimalAux_append (fuel : Nat) :
    ∀ (n : Nat) (acc : List Nat), decimalAux fuel n acc = decimalAux fuel n [] ++ acc := by
  induction fuel with
  | zero => intro n acc; rfl
  | succ fuel ih =>
    intro n acc
    unfold decimalAux
    by_cases h : n < 10
    · rw [if_pos h, if_pos h]; rfl
    · rw [if_neg h, if_neg h, ih (n / 10) ((48 + n % 10) :: acc), ih (n / 10) [48 + n % 10],
        List.append_assoc]
      rfl

theorem decimalAux_succ_of_ge (fuel n : Nat) (h : ¬ n < 10) :
    decimalAux (fuel + 1) n [] = decimalAux fuel (n / 10) [] ++ [48 + n % 10] := by
  conv_lhs => unfold decimalAux
  rw [if_neg h, decimalAux_append]

theorem decimalAux_succ_of_lt (fuel n : Nat) (h : n < 10) :
    decimalAux (fuel + 1) n [] = [48 + n] := by
  conv_lhs => unfold decimalAux
  rw [if_pos h]

theorem decimalAux_isDigit (fuel : Nat) :
    ∀ (n : Nat), ∀ c ∈ decimalAux fuel n [], isDigit c = true := by
  induction fuel with
  | zero => intro n c hc; simp [decimalAux] at hc
  | succ fuel ih =>
    intro n c hc
    by_cases h : n < 10
    · rw [decimalAux_succ_of_lt fuel n h] at hc
      rw [List.mem_singleton] at hc
      rw [isDigit_iff]; omega
    · rw [decimalAux_succ_of_ge fuel n h, List.mem_append, List.mem_singleton] at hc
      rcases hc with hc | hc
      · exact ih _ c hc
      · rw [isDigit_iff]; omega

theorem decimalAux_ne_nil (fuel n : Nat) : decimalAux (fuel + 1) n [] ≠ [] := by
  by_cases h : n < 10
  · rw [decimalAux_succ_of_lt fuel n h]; exact List.cons_ne_nil _ _
  · rw [decimalAux_succ_of_ge fuel n h]; simp

theorem foldDigits_decimalAux (fuel : Nat) :
    ∀ (n : Nat), n < 10 ^ fuel → foldDigits 0 (decimalAux fuel n []) = n := by
  induction fuel with
  | zero =>
    intro n hn
    have : n = 0 := by omega
    subst this; rfl
  | succ fuel ih =>
    intro n hn
    by_cases h : n < 10
    · rw [decimalAux_succ_of_lt fuel n h, foldDigits_cons, foldDigits_nil]; omega
    · rw [decimalAux_succ_of_ge fuel n h, foldDigits_snoc, ih (n / 10) (by
        rw [Nat.pow_succ] at hn; omega)]
      omega

/-- The digits written for a 64-bit value are ASCII digits. -/
theorem decimal_isDigit (n : Nat) : ∀ c ∈ decimal n, isDigit c = true :=
  decimalAux_isDigit 20 n

/-- At least one digit is written. -/
theorem decimal_ne_nil (n : Nat) : decimal n ≠ [] := decimalAux_ne_nil 19 n

/-- The digits written for a 64-bit value denote that value. -/
theorem denote_decimal (n : Nat) (hn : n < 2 ^ 64) : denote (decimal n) = n :=
  foldDigits_decimalAux 20 n (by omega)

/-! ## Trimming white space -/

theorem isAsciiSpace_iff (c : Nat) :
    isAsciiSpace c = true ↔ (c = 9 ∨ c = 10 ∨ c = 11 ∨ c = 12 ∨ c = 13 ∨ c = 32) := by
  simp [isAsciiSpace, or_assoc]

theorem spaceWidth_ascii (c : Nat) (rest : List Nat) (h : isAsciiSpace c = true) :
    spaceWidth (c :: rest) = 1 := by
  rw [isAsciiSpace_iff] at h
  simp [spaceWidth, h]

theorem spaceWidthRev_ascii (c : Nat) (rest : List Nat) (h : isAsciiSpace c = true) :
    spaceWidthRev (c :: rest) = 1 := by
  rw [isAsciiSpace_iff] at h
  simp [spaceWidthRev, h]

/-- An ASCII byte that is not white space does not start a white-space rune. -/
theorem spaceWidth_of_lt (c : Nat) (rest : List Nat) (h1 : c < 128)
    (h2 : isAsciiSpace c = false) : spaceWidth (c :: rest) = 0 := by
  have h3 : ¬ (c = 9 ∨ c = 10 ∨ c = 11 ∨ c = 12 ∨ c = 13 ∨ c = 32) := by
    intro h
    rw [(isAsciiSpace_iff c).2 h] at h2
    exact Bool.noConfusion h2
  have a1 : c ≠ 0xC2 := by omega
  have a2 : c ≠ 0xE1 := by omega
  have a3 : c ≠ 0xE2 := by omega
  have a4 : c ≠ 0xE3 := by omega
  simp only [spaceWidth, h3, a1, a2, a3, a4, if_false]

/-- An ASCII byte that is not white space does not end a white-space rune. -/
theorem spaceWidthRev_of_lt (c : Nat) (rest : List Nat) (h1 : c < 128)
    (h2 : isAsciiSpace c = false) : spaceWidthRev (c :: rest) = 0 := by
  have h3 : ¬ (c = 9 ∨ c = 10 ∨ c = 11 ∨ c = 12 ∨ c = 13 ∨ c = 32) := by
    intro h
    rw [(isAsciiSpace_iff c).2 h] at h2
    exact Bool.noConfusion h2
  match rest with
  | [] => simp only [spaceWidthRev, h3, if_false]
  | [d] =>
    have h4 : ¬ (d = 0xC2 ∧ (c = 0x85 ∨ c = 0xA0)) := by omega
    simp only [spaceWidthRev, h3, h4, if_false]
  | d :: e :: r =>
    have h4 : ¬ (d = 0xC2 ∧ (c = 0x85 ∨ c = 0xA0)) := by omega
    have h5 : spaceWidth [e, d, c] ≠ 3 := by
      simp only [spaceWidth]
      split_ifs <;> omega
    simp only [spaceWidthRev, h3, h4, h5, if_false]

theorem trimLeftSpace_succ (fuel : Nat) (s : List Nat) :
    trimLeftSpace (fuel + 1) s =
      if spaceWidth s = 0 then s else trimLeftSpace fuel (s.drop (spaceWidth s)) := rfl

theorem trimRightSpaceRev_succ (fuel : Nat) (r : List Nat) :
    trimRightSpaceRev (fuel + 1) r =
      if spaceWidthRev r = 0 then r else trimRightSpaceRev fuel (r.drop (spaceWidthRev r)) := rfl

theorem trimLeftSpace_stop (fuel : Nat) (s : List Nat) (h : spaceWidth s = 0) :
    trimLeftSpace fuel s = s := by
  cases fuel with
  | zero => rfl
  | succ fuel => rw [trimLeftSpace_succ, if_pos h]

theorem trimRightSpaceRev_stop (fuel : Nat) (r : List Nat) (h : spaceWidthRev r = 0) :
    trimRightSpaceRev fuel r = r := by
  cases fuel with
  | zero => rfl
  | succ fuel => rw [trimRightSpaceRev_succ, if_pos h]

theorem trimLeftSpace_ascii (W : List Nat) (X : List Nat) :
    ∀ (fuel : Nat), (∀ c ∈ W, isAsciiSpace c = true) →
      trimLeftSpace (W.length + fuel) (W ++ X) = trimLeftSpace fuel X := by
  induction W with
  | nil => intro fuel _; simp
  | cons c W ih =>
    intro fuel hW
    have hc := spaceWidth_ascii c (W ++ X) (hW c (List.mem_cons_self _ _))
    have e : (c :: W).length + fuel = (W.length + fuel) + 1 := by simp; omega
    rw [e, List.cons_append, trimLeftSpace_succ, hc, if_neg (by decide)]
    exact ih fuel (fun x hx => hW x (List.mem_cons_of_mem _ hx))

theorem trimRightSpaceRev_ascii (W : List Nat) (X : List Nat) :
    ∀ (fuel : Nat), (∀ c ∈ W, isAsciiSpace c = true) →
      trimRightSpaceRev (W.length + fuel) (W ++ X) = trimRightSpaceRev fuel X := by
  induction W with
  | nil => intro fuel _; simp
  | cons c W ih =>
    intro fuel hW
    have hc := spaceWidthRev_ascii c (W ++ X) (hW c (List.mem_cons_self _ _))
    have e : (c :: W).length + fuel = (W.length + fuel) + 1 := by simp; omega
    rw [e, List.cons_append, trimRightSpaceRev_succ, hc, if_neg (by decide)]
    exact ih fuel (fun x hx => hW x (List.mem_cons_of_mem _ hx))

theorem TrimSpace_nil : TrimSpace [] = [] := rfl

theorem spaceWidth_le_length (s : List Nat) : spaceWidth s ≤ s.length := by
  match s with
  | [] => simp [spaceWidth]
  | [c] => simp only [spaceWidth]; split_ifs <;> simp
  | [c, d] => simp only [spaceWidth]; split_ifs <;> simp
  | c :: d :: e :: r => simp only [spaceWidth]; split_ifs <;> simp

theorem spaceWidthRev_le_length (r : List Nat) : spaceWidthRev r ≤ r.length := by
  match r with
  | [] => simp [spaceWidthRev]
  | [c] => simp only [spaceWidthRev]; split_ifs <;> simp
  | [c, d] => simp only [spaceWidthRev]; split_ifs <;> simp
  | c :: d :: e :: r => simp only [spaceWidthRev]; split_ifs <;> simp

/-- The fuel given by `TrimSpace` is enough: no white-space rune is left at the
start of what `trimLeftSpace` returns. -/
theorem spaceWidth_trimLeftSpace (fuel : Nat) :
    ∀ s : List Nat, s.length ≤ fuel → spaceWidth (trimLeftSpace fuel s) = 0 := by
  induction fuel with
  | zero =>
    intro s hs
    have : s = [] := List.length_eq_zero.1 (Nat.le_zero.1 hs)
    subst this; rfl
  | succ fuel ih =>
    intro s hs
    rw [trimLeftSpace_succ]
    by_cases h : spaceWidth s = 0
    · rw [if_pos h]; exact h
    · rw [if_neg h]
      apply ih
      rw [List.length_drop]
      omega

/-- No white-space rune is left at the end of what `trimRightSpaceRev` returns. -/
theorem spaceWidthRev_trimRightSpaceRev (fuel : Nat) :
    ∀ r : List Nat, r.length ≤ fuel → spaceWidthRev (trimRightSpaceRev fuel r) = 0 := by
  induction fuel with
  | zero =>
    intro r hr
    have : r = [] := List.length_eq_zero.1 (Nat.le_zero.1 hr)
    subst this; rfl
  | succ fuel ih =>
    intro r hr
    rw [trimRightSpaceRev_succ]
    by_cases h : spaceWidthRev r = 0
    · rw [if_pos h]; exact h
    · rw [if_neg h]
      apply ih
      rw [List.length_drop]
      omega

theorem length_trimLeftSpace_le (fuel : Nat) :
    ∀ s : List Nat, (trimLeftSpace fuel s).length ≤ s.length := by
  induction fuel with
  | zero => intro s; exact Nat.le_refl _
  | succ fuel ih =>
    intro s
    rw [trimLeftSpace_succ]
    by_cases h : spaceWidth s = 0
    · rw [if_pos h]
    · rw [if_neg h]
      have := ih (s.drop (spaceWidth s))
      rw [List.length_drop] at this
      omega

/-- What `TrimSpace` returns ends with no white-space rune. -/
theorem TrimSpace_no_trailing (s : List Nat) : spaceWidthRev (TrimSpace s).reverse = 0 := by
  unfold TrimSpace
  rw [List.reverse_reverse]
  apply spaceWidthRev_trimRightSpaceRev
  rw [List.length_reverse]
  exact length_trimLeftSpace_le _ _

/-- A string with such ends is left as it is. -/
theorem TrimSpace_pad (W1 T W2 : List Nat) (hW1 : ∀ c ∈ W1, isAsciiSpace c = true)
    (hW2 : ∀ c ∈ W2, isAsciiSpace c = true) (hT : asciiEnds T) :
    TrimSpace (W1 ++ T ++ W2) = T := by
  rcases List.eq_nil_or_concat T with hnil | ⟨L, a, hLa⟩
  · subst hnil
    have hW : ∀ c ∈ W1 ++ W2, isAsciiSpace c = true := by
      intro c hc
      rcases List.mem_append.1 hc with h | h
      · exact hW1 c h
      · exact hW2 c h
    have h1 := trimLeftSpace_ascii (W1 ++ W2) [] 0 hW
    simp only [List.append_nil, Nat.add_zero] at h1
    unfold TrimSpace
    rw [List.append_nil, h1]
    rw [show trimLeftSpace 0 [] = [] from rfl, List.reverse_nil,
      trimRightSpaceRev_stop _ [] rfl, List.reverse_nil]
  · have hlast : a < 128 ∧ isAsciiSpace a = false := by
      apply hT.2 a
      rw [hLa]; simp
    have hhead : spaceWidth (T ++ W2) = 0 := by
      cases T with
      | nil => simp at hLa
      | cons c T2 =>
        have := hT.1 c (by simp)
        exact spaceWidth_of_lt c (T2 ++ W2) this.1 this.2
    have hlen : (W1 ++ T ++ W2).length = W1.length + (T.length + W2.length) := by
      simp [Nat.add_assoc]
    have hlen2 : (W1 ++ T ++ W2).length = W2.reverse.length + (W1.length + T.length) := by
      simp; omega
    have hL : trimLeftSpace (W1 ++ T ++ W2).length (W1 ++ T ++ W2) = T ++ W2 := by
      rw [hlen, List.append_assoc, trimLeftSpace_ascii W1 (T ++ W2) _ hW1,
        trimLeftSpace_stop _ _ hhead]
    have hrev : T.reverse = a :: L.reverse := by rw [hLa]; simp
    unfold TrimSpace
    rw [hL, List.reverse_append, hlen2,
      trimRightSpaceRev_ascii W2.reverse T.reverse _ (by
        intro c hc; exact hW2 c (List.mem_reverse.1 hc)),
      trimRightSpaceRev_stop _ _ (by
        rw [hrev]; exact spaceWidthRev_of_lt a _ hlast.1 hlast.2), List.reverse_reverse]

/-! ## The unit switch -/

theorem scaleBy_eq (t0 : List Nat) (val u : Nat) (hu : 0 < u) :
    scaleBy t0 val u =
      if val * u ≤ 2 ^ 64 - 1 then (val * u, none) else atOverflow t0 := by
  unfold scaleBy
  rw [maxUint64_eq]
  by_cases h : val * u ≤ 2 ^ 64 - 1
  · have h2 : ¬ val > (2 ^ 64 - 1) / u := by
      rw [gt_iff_lt, not_lt]
      exact (Nat.le_div_iff_mul_le hu).2 h
    rw [if_neg h2, if_pos h]
    unfold wrap64
    rw [Nat.mod_eq_of_lt (by omega)]
  · have h2 : val > (2 ^ 64 - 1) / u := by
      by_contra hc
      exact h ((Nat.le_div_iff_mul_le hu).1 (not_lt.1 hc))
    rw [if_pos h2, if_neg h]

/-- On a recognised token the switch multiplies by the unit of the token, or
leaves by `Overflow` when the product does not fit in 64 bits. -/
theorem unitSwitch_recognised (t0 : List Nat) (val : Nat) (T : List Nat) (m : Nat)
    (hval : val ≤ 2 ^ 64 - 1) (hT : (T, m) ∈ recognised) :
    unitSwitch t0 val T =
      if val * m ≤ 2 ^ 64 - 1 then (val * m, none) else atOverflow t0 := by
  simp only [recognised, spellings, List.map_cons, List.map_nil, List.cons_append,
    List.nil_append, List.mem_cons, Prod.mk.injEq, List.mem_nil_iff, or_false] at hT
  rcases hT with h | h | h | h | h | h | h | h | h | h | h | h | h | h | h | h | h | h | h | h | h
    | h | h | h | h | h | h | h | h | h | h | h | h <;>
  · obtain ⟨rfl, rfl⟩ := h
    simp [unitSwitch, scaleBy_eq, KB_eq, MB_eq, GB_eq, TB_eq, PB_eq, EB_eq]
    try (rw [if_pos (by omega)])

/-- On any other token the switch leaves by `SyntaxError`. -/
theorem unitSwitch_unrecognised (t0 : List Nat) (val : Nat) (T : List Nat)
    (hT : T ∉ tokens) : unitSwitch t0 val T = atSyntaxError t0 := by
  simp only [tokens, recognised, spellings, List.map_cons, List.map_nil, List.cons_append,
    List.nil_append, List.mem_cons, List.mem_nil_iff, or_false, not_or] at hT
  simp only [unitSwitch, List.mem_cons, List.mem_nil_iff, or_false]
  simp [hT]

/-! ## The parser on a digit run followed by a suffix -/

/-- The parser on a non-empty run of digits `D` followed by `rest`, where
`rest` is empty or starts with a byte that is not a digit: a number that does
not fit in 64 bits leaves by `Overflow`; otherwise the unit switch runs on the
number and on `rest` trimmed. -/
theorem UnmarshalText_digits (b : ByteSize) (D rest : List Nat) (hD : D ≠ [])
    (hDd : ∀ c ∈ D, isDigit c = true) (hrest : ∀ c ∈ rest.head?, isDigit c = false) :
    ByteSize.UnmarshalText b (D ++ rest) =
      if denote D < 2 ^ 64 then unitSwitch (D ++ rest) (denote D) (TrimSpace rest)
      else atOverflow (D ++ rest) := by
  have hlen : 0 + D.length ≠ 0 := by
    rw [Nat.zero_add]
    exact fun h => hD (List.length_eq_zero.1 h)
  unfold ByteSize.UnmarshalText
  rw [ParseLoop_digits D rest 0 0 hDd (by decide)]
  show (match (if denote D < 2 ^ 64 then ParseLoop rest (denote D) (0 + D.length)
      else LoopExit.Overflow) with
    | .Overflow => atOverflow (D ++ rest)
    | .SyntaxError => atSyntaxError (D ++ rest)
    | .Break val i => unitSwitch (D ++ rest) val (TrimSpace ((D ++ rest).drop i))) = _
  by_cases h : denote D < 2 ^ 64
  · rw [if_pos h, if_pos h, ParseLoop_stop rest _ _ hlen hrest]
    simp only [Nat.zero_add, List.drop_left]
  · rw [if_neg h, if_neg h]

theorem digitRun_append_afterDigits (t : List Nat) : digitRun t ++ afterDigits t = t :=
  List.takeWhile_append_dropWhile _ _

theorem digitRun_isDigit (t : List Nat) : ∀ c ∈ digitRun t, isDigit c = true :=
  fun _ hc => List.mem_takeWhile_imp hc

theorem afterDigits_head (t : List Nat) : ∀ c ∈ (afterDigits t).head?, isDigit c = false := by
  intro c hc
  induction t with
  | nil => simp [afterDigits] at hc
  | cons x t ih =>
    by_cases hx : isDigit x = true
    · apply ih
      simpa [afterDigits, List.dropWhile_cons, hx] using hc
    · simp only [afterDigits, List.dropWhile_cons, hx] at hc
      simp at hc
      subst hc
      simpa using hx

/-- A run of digits followed by a suffix that does not start with a digit is
the longest leading run of digits. -/
theorem digitRun_append (D rest : List Nat) (hDd : ∀ c ∈ D, isDigit c = true)
    (hrest : ∀ c ∈ rest.head?, isDigit c = false) :
    digitRun (D ++ rest) = D ∧ afterDigits (D ++ rest) = rest := by
  induction D with
  | nil =>
    cases rest with
    | nil => exact ⟨rfl, rfl⟩
    | cons c r =>
      have := hrest c (by simp)
      simp [digitRun, afterDigits, List.takeWhile_cons, List.dropWhile_cons, this]
  | cons x D ih =>
    have hx := hDd x (List.mem_cons_self _ _)
    have := ih (fun c hc => hDd c (List.mem_cons_of_mem _ hc))
    simp only [digitRun, afterDigits] at this
    simp [digitRun, afterDigits, List.takeWhile_cons, List.dropWhile_cons, hx, this]

/-! ## Facts about the token table and the canonical names -/

theorem isDigit_false_of_space (c : Nat) (h : isAsciiSpace c = true) : isDigit c = false := by
  rw [isAsciiSpace_iff] at h
  rcases h with rfl | rfl | rfl | rfl | rfl | rfl <;> rfl

theorem head_append_nodigit (X Y : List Nat) (hX : ∀ c ∈ X, isDigit c = false)
    (hY : ∀ c ∈ Y.head?, isDigit c = false) : ∀ c ∈ (X ++ Y).head?, isDigit c = false := by
  cases X with
  | nil => simpa using hY
  | cons x X =>
    intro c hc
    simp at hc
    subst hc
    exact hX _ (List.mem_cons_self _ _)

/-- Every recognised token starts and ends with an ASCII letter (or is empty)
and has a positive multiplier. -/
theorem recognised_facts (T : List Nat) (m : Nat) (hT : (T, m) ∈ recognised) :
    asciiEnds T ∧ (∀ c ∈ T.head?, isDigit c = false) ∧ (m = 1 ∨ m % 2 = 0) := by
  simp only [recognised, spellings, List.map_cons, List.map_nil, List.cons_append,
    List.nil_append, List.mem_cons, Prod.mk.injEq, List.mem_nil_iff, or_false] at hT
  rcases hT with h | h | h | h | h | h | h | h | h | h | h | h | h | h | h | h | h | h | h | h | h
    | h | h | h | h | h | h | h | h | h | h | h | h <;>
  · obtain ⟨rfl, rfl⟩ := h
    refine ⟨⟨?_, ?_⟩, ?_, ?_⟩ <;> simp [isAsciiSpace, isDigit]

theorem unitName_recognised (k : Nat) (hk : k ≤ 6) : (unitName k, 1024 ^ k) ∈ recognised := by
  interval_cases k <;> simp [unitName, recognised, spellings]

/-- The shape of the canonical text: the quotient by a unit `1024 ^ k` that
divides the value, followed by the name of the unit; for a value other than 0
no larger unit of the table divides it. -/
theorem String_shape (v : Nat) :
    ∃ k, k ≤ 6 ∧ ByteSize.String v = decimal (v / 1024 ^ k) ++ unitName k ∧
      v % 1024 ^ k = 0 ∧ (v ≠ 0 → k < 6 → v % 1024 ^ (k + 1) ≠ 0) := by
  unfold ByteSize.String
  rw [EB_eq, PB_eq, TB_eq, GB_eq, MB_eq, KB_eq]
  by_cases h0 : v = 0
  · subst h0
    exact ⟨0, by decide, rfl, rfl, fun h => absurd rfl h⟩
  rw [if_neg h0]
  by_cases h6 : v % 1024 ^ 6 = 0
  · rw [if_pos h6]
    exact ⟨6, le_refl _, rfl, h6, fun _ h => absurd h (by decide)⟩
  rw [if_neg h6]
  by_cases h5 : v % 1024 ^ 5 = 0
  · rw [if_pos h5]
    exact ⟨5, by decide, rfl, h5, fun _ _ => h6⟩
  rw [if_neg h5]
  by_cases h4 : v % 1024 ^ 4 = 0
  · rw [if_pos h4]
    exact ⟨4, by decide, rfl, h4, fun _ _ => h5⟩
  rw [if_neg h4]
  by_cases h3 : v % 1024 ^ 3 = 0
  · rw [if_pos h3]
    exact ⟨3, by decide, rfl, h3, fun _ _ => h4⟩
  rw [if_neg h3]
  by_cases h2 : v % 1024 ^ 2 = 0
  · rw [if_pos h2]
    exact ⟨2, by decide, rfl, h2, fun _ _ => h3⟩
  rw [if_neg h2]
  by_cases h1 : v % 1024 = 0
  · rw [if_pos h1]
    exact ⟨1, by decide, rfl, by simpa using h1, fun _ _ => h2⟩
  rw [if_neg h1]
  exact ⟨0, by decide, by simp [unitName], Nat.mod_one v, fun _ _ => by simpa using h1⟩

/-! ## The three ways out of the parser -/

theorem unitSwitch_outcome (t0 : List Nat) (val : Nat) (unit : List Nat) :
    (∃ v, unitSwitch t0 val unit = (v, none)) ∨
      unitSwitch t0 val unit = atSyntaxError t0 ∨ unitSwitch t0 val unit = atOverflow t0 := by
  unfold unitSwitch scaleBy
  split_ifs
  all_goals first
    | exact Or.inl ⟨_, rfl⟩
    | exact Or.inr (Or.inl rfl)
    | exact Or.inr (Or.inr rfl)

/-- Every run of the parser ends at `return nil`, at label `SyntaxError` or at
label `Overflow`. -/
theorem UnmarshalText_outcome (b : ByteSize) (t : List Nat) :
    (∃ v, ByteSize.UnmarshalText b t = (v, none)) ∨
      ByteSize.UnmarshalText b t = atSyntaxError t ∨
      ByteSize.UnmarshalText b t = atOverflow t := by
  unfold ByteSize.UnmarshalText
  cases ParseLoop t 0 0 with
  | Overflow => exact Or.inr (Or.inr rfl)
  | SyntaxError => exact Or.inr (Or.inl rfl)
  | Break val i => exact unitSwitch_outcome t val _

/-! ## The tables of the repository's tests -/

/-- The rows of `TestMarshalText`. -/
theorem test_MarshalText :
    -- 0 gives "0B"
    (ByteSize.MarshalText (0)).1 = [48, 66] ∧
    -- B gives "1B"
    (ByteSize.MarshalText (B)).1 = [49, 66] ∧
    -- KB gives "1KB"
    (ByteSize.MarshalText (KB)).1 = [49, 75, 66] ∧
    -- MB gives "1MB"
    (ByteSize.MarshalText (MB)).1 = [49, 77, 66] ∧
    -- GB gives "1GB"
    (ByteSize.MarshalText (GB)).1 = [49, 71, 66] ∧
    -- TB gives "1TB"
    (ByteSize.MarshalText (TB)).1 = [49, 84, 66] ∧
    -- PB gives "1PB"
    (ByteSize.MarshalText (PB)).1 = [49, 80, 66] ∧
    -- EB gives "1EB"
    (ByteSize.MarshalText (EB)).1 = [49, 69, 66] ∧
    -- 400 * TB gives "400TB"
    (ByteSize.MarshalText (400 * TB)).1 = [52, 48, 48, 84, 66] ∧
    -- 2048 * MB gives "2GB"
    (ByteSize.MarshalText (2048 * MB)).1 = [50, 71, 66] ∧
    -- B + KB gives "1025B"
    (ByteSize.MarshalText (B + KB)).1 = [49, 48, 50, 53, 66] ∧
    -- MB + 20 * KB gives "1044KB"
    (ByteSize.MarshalText (MB + 20 * KB)).1 = [49, 48, 52, 52, 75, 66] ∧
    -- 100 * MB + KB gives "102401KB"
    (ByteSize.MarshalText (100 * MB + KB)).1 = [49, 48, 50, 52, 48, 49, 75, 66] := by
  decide

/-- The rows of `TestUnmarshalText`: the value stored and whether an error is
returned. -/
theorem test_UnmarshalText :
    -- "0"
    ((ByteSize.UnmarshalText 0 [48]).1 = 0 ∧
      (ByteSize.UnmarshalText 0 [48]).2.isSome = false) ∧
    -- "0B"
    ((ByteSize.UnmarshalText 0 [48, 66]).1 = 0 ∧
      (ByteSize.UnmarshalText 0 [48, 66]).2.isSome = false) ∧
    -- "0 KB"
    ((ByteSize.UnmarshalText 0 [48, 32, 75, 66]).1 = 0 ∧
      (ByteSize.UnmarshalText 0 [48, 32, 75, 66]).2.isSome = false) ∧
    -- "1"
    ((ByteSize.UnmarshalText 0 [49]).1 = B ∧
      (ByteSize.UnmarshalText 0 [49]).2.isSome = false) ∧
    -- "1K"
    ((ByteSize.UnmarshalText 0 [49, 75]).1 = KB ∧
      (ByteSize.UnmarshalText 0 [49, 75]).2.isSome = false) ∧
    -- "2MB"
    ((ByteSize.UnmarshalText 0 [50, 77, 66]).1 = 2 * MB ∧
      (ByteSize.UnmarshalText 0 [50, 77, 66]).2.isSome = false) ∧
    -- "5 GB"
    ((ByteSize.UnmarshalText 0 [53, 32, 71, 66]).1 = 5 * GB ∧
      (ByteSize.UnmarshalText 0 [53, 32, 71, 66]).2.isSome = false) ∧
    -- "20480 G"
    ((ByteSize.UnmarshalText 0 [50, 48, 52, 56, 48, 32, 71]).1 = 20 * TB ∧
      (ByteSize.UnmarshalText 0 [50, 48, 52, 56, 48, 32, 71]).2.isSome = false) ∧
    -- "50 eB"
    ((ByteSize.UnmarshalText 0 [53, 48, 32, 101, 66]).1 = 2 ^ 64 - 1 ∧
      (ByteSize.UnmarshalText 0 [53, 48, 32, 101, 66]).2.isSome = true) ∧
    -- "200000 pb"
    ((ByteSize.UnmarshalText 0 [50, 48, 48, 48, 48, 48, 32, 112, 98]).1 = 2 ^ 64 - 1 ∧
      (ByteSize.UnmarshalText 0 [50, 48, 48, 48, 48, 48, 32, 112, 98]).2.isSome = true) ∧
    -- "10 Mb"
    ((ByteSize.UnmarshalText 0 [49, 48, 32, 77, 98]).1 = 0 ∧
      (ByteSize.UnmarshalText 0 [49, 48, 32, 77, 98]).2.isSome = true) ∧
    -- "g"
    ((ByteSize.UnmarshalText 0 [103]).1 = 0 ∧
      (ByteSize.UnmarshalText 0 [103]).2.isSome = true) ∧
    -- "10 kB "
    ((ByteSize.UnmarshalText 0 [49, 48, 32, 107, 66, 32]).1 = 10 * KB ∧
      (ByteSize.UnmarshalText 0 [49, 48, 32, 107, 66, 32]).2.isSome = false) ∧
    -- "10 kBs "
    ((ByteSize.UnmarshalText 0 [49, 48, 32, 107, 66, 115, 32]).1 = 0 ∧
      (ByteSize.UnmarshalText 0 [49, 48, 32, 107, 66, 115, 32]).2.isSome = true) := by
  decide

/-- White space other than ASCII is trimmed too: a no-break space (U+00A0)
before the unit and an ideographic space (U+3000) after it. -/
theorem TrimSpace_unicode :
    TrimSpace [0xC2, 0xA0, 75, 66, 0xE3, 0x80, 0x80] = [75, 66] := by
  decide

/-! ## Value and kind of outcome, whatever the saved input -/

/-- The value stored and the kind of outcome of the unit switch do not depend
on the saved input `t0`, which is only copied into the error. -/
theorem unitSwitch_fst_kind (t0 t1 : List Nat) (val : Nat) (unit : List Nat) :
    (unitSwitch t0 val unit).1 = (unitSwitch t1 val unit).1 ∧
      errKind (unitSwitch t0 val unit) = errKind (unitSwitch t1 val unit) := by
  unfold unitSwitch scaleBy
  split_ifs <;> exact ⟨rfl, rfl⟩

/-- Two inputs with non-empty digit runs that denote the same number, followed
by suffixes that trim to the same unit, store the same value and have the same
kind of outcome. -/
theorem UnmarshalText_congr (b : ByteSize) (D1 D2 R1 R2 : List Nat)
    (h1 : D1 ≠ []) (h2 : D2 ≠ [])
    (hd1 : ∀ c ∈ D1, isDigit c = true) (hd2 : ∀ c ∈ D2, isDigit c = true)
    (hr1 : ∀ c ∈ R1.head?, isDigit c = false) (hr2 : ∀ c ∈ R2.head?, isDigit c = false)
    (hden : denote D1 = denote D2) (htrim : TrimSpace R1 = TrimSpace R2) :
    (ByteSize.UnmarshalText b (D1 ++ R1)).1 = (ByteSize.UnmarshalText b (D2 ++ R2)).1 ∧
      errKind (ByteSize.UnmarshalText b (D1 ++ R1)) =
        errKind (ByteSize.UnmarshalText b (D2 ++ R2)) := by
  rw [UnmarshalText_digits b D1 R1 h1 hd1 hr1, UnmarshalText_digits b D2 R2 h2 hd2 hr2,
    hden, htrim]
  by_cases h : denote D2 < 2 ^ 64
  · rw [if_pos h, if_pos h]
    exact unitSwitch_fst_kind _ _ _ _
  · rw [if_neg h, if_neg h]
    exact ⟨rfl, rfl⟩

theorem foldDigits_zeros (k : Nat) : foldDigits 0 (List.replicate k 48) = 0 := by
  induction k with
  | zero => rfl
  | succ k ih => rw [List.replicate_succ, foldDigits_cons]; exact ih

theorem digitRun_ne_nil (t : List Nat) (c : Nat) (ht : t.head? = some c)
    (hc : isDigit c = true) : digitRun t ≠ [] := by
  cases t with
  | nil => simp at ht
  | cons x r =>
    simp at ht
    subst ht
    simp [digitRun, List.takeWhile_cons, hc]

/-! ## Trimming a string padded with ASCII white space -/

theorem trimLeftSpace_fuel_succ (fuel : Nat) :
    ∀ s : List Nat, s.length ≤ fuel → trimLeftSpace (fuel + 1) s = trimLeftSpace fuel s := by
  induction fuel with
  | zero =>
    intro s hs
    have : s = [] := List.length_eq_zero.1 (Nat.le_zero.1 hs)
    subst this; rfl
  | succ fuel ih =>
    intro s hs
    rw [trimLeftSpace_succ (fuel + 1) s, trimLeftSpace_succ fuel s]
    by_cases h : spaceWidth s = 0
    · rw [if_pos h, if_pos h]
    · rw [if_neg h, if_neg h]
      apply ih
      rw [List.length_drop]
      omega

theorem trimRightSpaceRev_fuel_succ (fuel : Nat) :
    ∀ r : List Nat, r.length ≤ fuel →
      trimRightSpaceRev (fuel + 1) r = trimRightSpaceRev fuel r := by
  induction fuel with
  | zero =>
    intro r hr
    have : r = [] := List.length_eq_zero.1 (Nat.le_zero.1 hr)
    subst this; rfl
  | succ fuel ih =>
    intro r hr
    rw [trimRightSpaceRev_succ (fuel + 1) r, trimRightSpaceRev_succ fuel r]
    by_cases h : spaceWidthRev r = 0
    · rw [if_pos h, if_pos h]
    · rw [if_neg h, if_neg h]
      apply ih
      rw [List.length_drop]
      omega

/-- Any fuel that is at least the length of the string gives the same result. -/
theorem trimLeftSpace_of_le (s : List Nat) :
    ∀ d : Nat, trimLeftSpace (s.length + d) s = trimLeftSpace s.length s := by
  intro d
  induction d with
  | zero => rfl
  | succ d ih =>
    rw [← Nat.add_assoc, trimLeftSpace_fuel_succ _ s (Nat.le_add_right _ _)]
    exact ih

theorem trimRightSpaceRev_of_le (r : List Nat) :
    ∀ d : Nat, trimRightSpaceRev (r.length + d) r = trimRightSpaceRev r.length r := by
  intro d
  induction d with
  | zero => rfl
  | succ d ih =>
    rw [← Nat.add_assoc, trimRightSpaceRev_fuel_succ _ r (Nat.le_add_right _ _)]
    exact ih

theorem trimLeftSpace_ge (s : List Nat) (fuel : Nat) (h : s.length ≤ fuel) :
    trimLeftSpace fuel s = trimLeftSpace s.length s := by
  have := trimLeftSpace_of_le s (fuel - s.length)
  rwa [Nat.add_sub_cancel' h] at this

theorem trimRightSpaceRev_ge (r : List Nat) (fuel : Nat) (h : r.length ≤ fuel) :
    trimRightSpaceRev fuel r = trimRightSpaceRev r.length r := by
  have := trimRightSpaceRev_of_le r (fuel - r.length)
  rwa [Nat.add_sub_cancel' h] at this

/-- ASCII white space after a non-empty string does not complete a white-space
rune started in the string. -/
theorem spaceWidth_append_ascii (S W : List Nat) (hS : S ≠ [])
    (hW : ∀ c ∈ W, isAsciiSpace c = true) : spaceWidth (S ++ W) = spaceWidth S := by
  match S, hS with
  | c :: d :: e :: r, _ => simp only [List.cons_append, spaceWidth]
  | [c, d], _ =>
    match W, hW with
    | [], _ => rfl
    | w :: W2, hW =>
      have hw := (isAsciiSpace_iff w).1 (hW w (List.mem_cons_self _ _))
      simp only [List.cons_append, List.nil_append, spaceWidth]
      split_ifs <;> first | rfl | omega
  | [c], _ =>
    match W, hW with
    | [], _ => rfl
    | [w], hW =>
      have hw := (isAsciiSpace_iff w).1 (hW w (List.mem_cons_self _ _))
      simp only [List.cons_append, List.nil_append, spaceWidth]
      split_ifs <;> first | rfl | omega
    | w :: x :: W2, hW =>
      have hw := (isAsciiSpace_iff w).1 (hW w (List.mem_cons_self _ _))
      simp only [List.cons_append, List.nil_append, spaceWidth]
      split_ifs <;> first | rfl | omega

/-- One step of the removal of leading white space, with the fuel that
`TrimSpace` gives. -/
theorem trimLeftSpace_length_unfold (s : List Nat) :
    trimLeftSpace s.length s =
      if spaceWidth s = 0 then s
      else trimLeftSpace (s.drop (spaceWidth s)).length (s.drop (spaceWidth s)) := by
  by_cases h : spaceWidth s = 0
  · rw [if_pos h, trimLeftSpace_stop _ _ h]
  · rw [if_neg h]
    have hle := spaceWidth_le_length s
    have e : s.length = (s.length - 1) + 1 := by omega
    rw [e, trimLeftSpace_succ, if_neg h]
    apply trimLeftSpace_ge
    rw [List.length_drop]
    omega

theorem trimLeftSpace_all_ascii (W : List Nat) (hW : ∀ c ∈ W, isAsciiSpace c = true) :
    trimLeftSpace W.length W = [] := by
  have h := trimLeftSpace_ascii W [] 0 hW
  rw [List.append_nil, Nat.add_zero] at h
  rw [h]
  rfl

/-- Leading white space of a string followed by ASCII white space: when
something is left of the string, the padding stays after it. -/
theorem trimLeftSpace_append_ascii (W : List Nat) (hW : ∀ c ∈ W, isAsciiSpace c = true) :
    ∀ (n : Nat) (T : List Nat), T.length ≤ n →
      trimLeftSpace (T ++ W).length (T ++ W) =
        if trimLeftSpace T.length T = [] then [] else trimLeftSpace T.length T ++ W := by
  intro n
  induction n with
  | zero =>
    intro T hT
    have : T = [] := List.length_eq_zero.1 (Nat.le_zero.1 hT)
    subst this
    rw [List.nil_append, trimLeftSpace_all_ascii W hW]
    rfl
  | succ n ih =>
    intro T hT
    by_cases hnil : T = []
    · subst hnil
      rw [List.nil_append, trimLeftSpace_all_ascii W hW]
      rfl
    · have hA := spaceWidth_append_ascii T W hnil hW
      rw [trimLeftSpace_length_unfold (T ++ W), trimLeftSpace_length_unfold T, hA]
      by_cases h0 : spaceWidth T = 0
      · rw [if_pos h0, if_pos h0, if_neg hnil]
      · have hle := spaceWidth_le_length T
        rw [if_neg h0, if_neg h0, List.drop_append_of_le_length hle]
        apply ih
        rw [List.length_drop]
        omega

/-- ASCII white space around a string does not change what `TrimSpace`
returns. -/
theorem TrimSpace_pad_any (W1 T W2 : List Nat) (hW1 : ∀ c ∈ W1, isAsciiSpace c = true)
    (hW2 : ∀ c ∈ W2, isAsciiSpace c = true) :
    TrimSpace (W1 ++ T ++ W2) = TrimSpace T := by
  have hL : trimLeftSpace (W1 ++ T ++ W2).length (W1 ++ T ++ W2) =
      if trimLeftSpace T.length T = [] then [] else trimLeftSpace T.length T ++ W2 := by
    rw [List.append_assoc, List.length_append, trimLeftSpace_ascii W1 (T ++ W2) _ hW1]
    exact trimLeftSpace_append_ascii W2 hW2 T.length T (Nat.le_refl _)
  have hRlen := length_trimLeftSpace_le T.length T
  unfold TrimSpace
  rw [hL]
  by_cases hR : trimLeftSpace T.length T = []
  · rw [if_pos hR, hR, List.reverse_nil, trimRightSpaceRev_stop _ [] rfl,
      trimRightSpaceRev_stop _ [] rfl]
  · rw [if_neg hR, List.reverse_append]
    have hlen : (W1 ++ T ++ W2).length = W2.reverse.length + (W1.length + T.length) := by
      simp; omega
    rw [hlen, trimRightSpaceRev_ascii W2.reverse _ _ (by
      intro c hc; exact hW2 c (List.mem_reverse.1 hc))]
    rw [trimRightSpaceRev_ge _ (W1.length + T.length) (by
        rw [List.length_reverse]; omega),
      trimRightSpaceRev_ge _ T.length (by rw [List.length_reverse]; exact hRlen)]

/-! ## Case variants of the recognised tokens -/

/-- The suffix `W1 ++ T ++ W2` of an input, with `W1`, `W2` ASCII white space
and `T` a recognised token, does not start with a digit and trims to `T`. -/
theorem suffix_facts (W1 T W2 : List Nat) (m : Nat)
    (hW1 : ∀ c ∈ W1, isAsciiSpace c = true) (hW2 : ∀ c ∈ W2, isAsciiSpace c = true)
    (hT : (T, m) ∈ recognised) :
    (∀ c ∈ (W1 ++ T ++ W2).head?, isDigit c = false) ∧ TrimSpace (W1 ++ T ++ W2) = T := by
  have hfacts := recognised_facts T m hT
  refine ⟨?_, TrimSpace_pad W1 T W2 hW1 hW2 hfacts.1⟩
  rw [List.append_assoc]
  apply head_append_nodigit W1 _ (fun c hc => isDigit_false_of_space c (hW1 c hc))
  cases T with
  | nil =>
    simpa using head_append_nodigit W2 [] (fun c hc => isDigit_false_of_space c (hW2 c hc))
      (by simp)
  | cons x T2 =>
    intro c hc
    exact hfacts.2.1 c (by simpa using hc)


/-- A non-empty in-range digit run followed directly by a recognised token:
the product is stored when it fits in 64 bits, and the parser leaves by
`Overflow` otherwise. -/
theorem UnmarshalText_recognised (b : ByteSize) (D T : List Nat) (m : Nat) (hD : D ≠ [])
    (hDd : ∀ c ∈ D, isDigit c = true) (hN : denote D ≤ 2 ^ 64 - 1)
    (hT : (T, m) ∈ recognised) :
    ByteSize.UnmarshalText b (D ++ T) =
      if denote D * m ≤ 2 ^ 64 - 1 then (denote D * m, none) else atOverflow (D ++ T) := by
  obtain ⟨hhead, htrim⟩ := suffix_facts [] T [] m (by simp) (by simp) hT
  simp only [List.nil_append, List.append_nil] at hhead htrim
  rw [UnmarshalText_digits b D T hD hDd hhead, if_pos (by omega), htrim,
    unitSwitch_recognised _ _ T m hN hT]

/-- A case variant of a recognised token is recognised with the same
multiplier, unless it is one of the six spellings `Kb` to `Eb`. -/
theorem caseVariants_recognised :
    ∀ p ∈ recognised, ∀ T2 ∈ caseVariants p.1, (T2, p.2) ∈ recognised ∨ T2 ∈ upperLower := by
  decide

/-- The six spellings `Kb` to `Eb` are not recognised; each starts and ends
with an ASCII letter. -/
theorem upperLower_facts :
    ∀ T ∈ upperLower, T ∉ tokens ∧ asciiEnds T ∧ (∀ c ∈ T.head?, isDigit c = false) := by
  intro T hT
  simp only [upperLower, List.mem_cons, List.mem_nil_iff, or_false] at hT
  rcases hT with rfl | rfl | rfl | rfl | rfl | rfl <;>
  · refine ⟨by decide, ⟨?_, ?_⟩, ?_⟩ <;> simp [isAsciiSpace, isDigit]

/-! ## Lengths: the canonical text against the texts that parse -/

theorem length_decimalAux_le (fuel : Nat) :
    ∀ (n L : Nat), 1 ≤ L → n < 10 ^ L → (decimalAux fuel n []).length ≤ L := by
  induction fuel with
  | zero => intro n L _ _; exact Nat.zero_le _
  | succ fuel ih =>
    intro n L hL hn
    by_cases h : n < 10
    · rw [decimalAux_succ_of_lt fuel n h]; exact hL
    · rw [decimalAux_succ_of_ge fuel n h, List.length_append, List.length_singleton]
      have hL2 : 2 ≤ L := by
        by_contra hc
        have : L = 1 := by omega
        subst this
        exact h hn
      have e : L = (L - 1) + 1 := by omega
      have hn2 : n / 10 < 10 ^ (L - 1) := by
        rw [e, Nat.pow_succ] at hn
        exact Nat.div_lt_of_lt_mul (by rwa [Nat.mul_comm] at hn)
      have := ih (n / 10) (L - 1) (by omega) hn2
      omega

/-- The decimal text of a number below `10 ^ L` has at most `L` digits. -/
theorem length_decimal_le (n L : Nat) (hL : 1 ≤ L) (hn : n < 10 ^ L) :
    (decimal n).length ≤ L := length_decimalAux_le 20 n L hL hn

theorem foldDigits_lt (D : List Nat) :
    ∀ val : Nat, (∀ c ∈ D, isDigit c = true) →
      foldDigits val D < (val + 1) * 10 ^ D.length := by
  induction D with
  | nil => intro val _; rw [foldDigits_nil]; simp
  | cons c D ih =>
    intro val hD
    have hc := (isDigit_iff c).1 (hD c (List.mem_cons_self _ _))
    have h := ih (val * 10 + (c - 48)) (fun x hx => hD x (List.mem_cons_of_mem _ hx))
    rw [foldDigits_cons, List.length_cons, Nat.pow_succ]
    have h2 : (val * 10 + (c - 48) + 1) * 10 ^ D.length ≤ (val + 1) * 10 * 10 ^ D.length :=
      Nat.mul_le_mul_right _ (by omega)
    calc foldDigits (val * 10 + (c - 48)) D
        < (val * 10 + (c - 48) + 1) * 10 ^ D.length := h
      _ ≤ (val + 1) * 10 * 10 ^ D.length := h2
      _ = (val + 1) * (10 ^ D.length * 10) := by ring

/-- A run of `L` digits denotes a number below `10 ^ L`. -/
theorem denote_lt (D : List Nat) (hD : ∀ c ∈ D, isDigit c = true) :
    denote D < 10 ^ D.length := by
  have := foldDigits_lt D 0 hD
  simpa [denote] using this

theorem length_trimRightSpaceRev_le (fuel : Nat) :
    ∀ r : List Nat, (trimRightSpaceRev fuel r).length ≤ r.length := by
  induction fuel with
  | zero => intro r; exact Nat.le_refl _
  | succ fuel ih =>
    intro r
    rw [trimRightSpaceRev_succ]
    by_cases h : spaceWidthRev r = 0
    · rw [if_pos h]
    · rw [if_neg h]
      have := ih (r.drop (spaceWidthRev r))
      rw [List.length_drop] at this
      omega

/-- Trimming does not make a string longer. -/
theorem length_TrimSpace_le (s : List Nat) : (TrimSpace s).length ≤ s.length := by
  unfold TrimSpace
  rw [List.length_reverse]
  have h1 := length_trimRightSpaceRev_le s.length (trimLeftSpace s.length s).reverse
  rw [List.length_reverse] at h1
  exact Nat.le_trans h1 (length_trimLeftSpace_le _ _)

/-- The multiplier of a recognised token is a power `1024 ^ j` of the table,
and a token with `j` other than 0 is not empty. -/
theorem recognised_pow (T : List Nat) (m : Nat) (hT : (T, m) ∈ recognised) :
    ∃ j, j ≤ 6 ∧ m = 1024 ^ j ∧ (j ≠ 0 → 1 ≤ T.length) := by
  simp only [recognised, spellings, List.map_cons, List.map_nil, List.cons_append,
    List.nil_append, List.mem_cons, Prod.mk.injEq, List.mem_nil_iff, or_false] at hT
  rcases hT with h | h | h | h | h | h | h | h | h | h | h | h | h | h | h | h | h | h | h | h | h
    | h | h | h | h | h | h | h | h | h | h | h | h <;>
  · obtain ⟨rfl, rfl⟩ := h
    first
    | exact ⟨0, by decide, rfl, fun h => absurd rfl h⟩
    | exact ⟨1, by decide, rfl, fun _ => by decide⟩
    | exact ⟨2, by decide, rfl, fun _ => by decide⟩
    | exact ⟨3, by decide, rfl, fun _ => by decide⟩
    | exact ⟨4, by decide, rfl, fun _ => by decide⟩
    | exact ⟨5, by decide, rfl, fun _ => by decide⟩
    | exact ⟨6, by decide, rfl, fun _ => by decide⟩

/-- When the unit switch ends without error, the unit is a recognised token
and the value stored is the product, which fits in 64 bits. -/
theorem unitSwitch_success (t0 : List Nat) (val v : Nat) (unit : List Nat)
    (hval : val ≤ 2 ^ 64 - 1) (h : unitSwitch t0 val unit = (v, none)) :
    ∃ m, (unit, m) ∈ recognised ∧ v = val * m ∧ val * m ≤ 2 ^ 64 - 1 := by
  by_cases hu : unit ∈ tokens
  · obtain ⟨p, hp, hpe⟩ := List.mem_map.1 hu
    obtain ⟨T, m⟩ := p
    simp only at hpe
    subst hpe
    rw [unitSwitch_recognised t0 val T m hval hp] at h
    by_cases hle : val * m ≤ 2 ^ 64 - 1
    · rw [if_pos hle] at h
      exact ⟨m, hp, (congrArg Prod.fst h).symm, hle⟩
    · rw [if_neg hle] at h
      have := congrArg Prod.snd h
      exact Option.noConfusion this
  · rw [unitSwitch_unrecognised t0 val unit hu] at h
    have := congrArg Prod.snd h
    exact Option.noConfusion this

/-- A non-empty input that is accepted starts with a non-empty digit run that
denotes a number `N`, and the value stored is `N * 1024 ^ j` for a unit of the
table; the input is at least as long as the digit run, and longer when `j` is
not 0. -/
theorem UnmarshalText_success (b : ByteSize) (t : List Nat) (v : Nat) (ht : t ≠ [])
    (h : ByteSize.UnmarshalText b t = (v, none)) :
    ∃ j, j ≤ 6 ∧ digitRun t ≠ [] ∧ v = denote (digitRun t) * 1024 ^ j ∧
      (j = 0 → (digitRun t).length ≤ t.length) ∧
      (j ≠ 0 → (digitRun t).length + 1 ≤ t.length) := by
  have hD : digitRun t ≠ [] := by
    cases t with
    | nil => exact absurd rfl ht
    | cons c r =>
      by_cases hc : isDigit c = true
      · exact digitRun_ne_nil (c :: r) c rfl hc
      · have hc2 : isDigit c = false := by simpa using hc
        unfold ByteSize.UnmarshalText at h
        rw [ParseLoop_nondigit c r 0 hc2] at h
        have := congrArg Prod.snd h
        exact Option.noConfusion this
  have hU := UnmarshalText_digits b (digitRun t) (afterDigits t) hD (digitRun_isDigit t)
    (afterDigits_head t)
  rw [digitRun_append_afterDigits, h] at hU
  by_cases hlt : denote (digitRun t) < 2 ^ 64
  · rw [if_pos hlt] at hU
    obtain ⟨m, hrec, hv, -⟩ := unitSwitch_success _ _ _ _ (by omega) hU.symm
    obtain ⟨j, hj, hm, hjlen⟩ := recognised_pow _ m hrec
    have hsplit : t.length = (digitRun t).length + (afterDigits t).length := by
      rw [← List.length_append, digitRun_append_afterDigits]
    have htrim := length_TrimSpace_le (afterDigits t)
    refine ⟨j, hj, hD, by rw [hv, hm], fun _ => by omega, fun hj0 => ?_⟩
    have := hjlen hj0
    omega
  · rw [if_neg hlt] at hU
    have := congrArg Prod.snd hU
    exact Option.noConfusion this.symm

/-! ## The claims -/

/-- C1. Round trip: for every ByteSize `v` in 0..2^64-1, `MarshalText v`
returns no error and its bytes are `String v`, and `UnmarshalText` applied to
those bytes (whatever the receiver held before) returns no error and stores
exactly `v`. -/
theorem C1_round_trip (b v : ByteSize) (hv : v ≤ 2 ^ 64 - 1) :
    ByteSize.MarshalText v = (ByteSize.String v, none) ∧
    ByteSize.UnmarshalText b (ByteSize.MarshalText v).1 = (v, none) := by
  refine ⟨rfl, ?_⟩
  show ByteSize.UnmarshalText b (ByteSize.String v) = (v, none)
  obtain ⟨k, hk, hS, hdiv, -⟩ := String_shape v
  have hq : v / 1024 ^ k * 1024 ^ k = v := Nat.div_mul_cancel (Nat.dvd_of_mod_eq_zero hdiv)
  have hqlt : v / 1024 ^ k < 2 ^ 64 :=
    Nat.lt_of_le_of_lt (Nat.div_le_self _ _) (Nat.lt_succ_of_le hv)
  have hden : denote (decimal (v / 1024 ^ k)) = v / 1024 ^ k := denote_decimal _ hqlt
  have hrec := unitName_recognised k hk
  have hfacts := recognised_facts _ _ hrec
  have htrim : TrimSpace (unitName k) = unitName k := by
    have := TrimSpace_pad [] (unitName k) [] (by simp) (by simp) hfacts.1
    simpa using this
  rw [hS, UnmarshalText_digits b _ _ (decimal_ne_nil _) (decimal_isDigit _) hfacts.2.1, hden,
    if_pos hqlt, htrim, unitSwitch_recognised _ _ _ _ (Nat.le_pred_of_lt hqlt) hrec, hq,
    if_pos hv]

/-- The statement of `C1_round_trip` at the value `2048 * MB`. -/
theorem C1_round_trip_witness :
    ByteSize.MarshalText (2048 * MB) = (ByteSize.String (2048 * MB), none) ∧
    ByteSize.UnmarshalText 7 (ByteSize.MarshalText (2048 * MB)).1 = (2048 * MB, none) :=
  C1_round_trip 7 (2048 * MB) (by decide)

/-- C2. Canonical form: `String 0` is `0B`; for every `v` other than 0 (in
0..2^64-1), `String v` is the decimal text of `v / U` followed, with no space,
by the name of `U`, where `U = 1024 ^ k` is the largest of B, KB, MB, GB, TB,
PB, EB that divides `v` exactly, so that `(v / U) * U = v` and, when `U` is not
EB, `v / U` is not a multiple of 1024; in particular a `v` not divisible by
1024 renders as its decimal text followed by `B`. The decimal text of a 64-bit
number is a non-empty run of digits that denotes the number. -/
theorem C2_canonical_form (v : ByteSize) (hv : v ≤ 2 ^ 64 - 1) :
    ByteSize.String 0 = [48, 66] ∧
    (v ≠ 0 → ∃ k, k ≤ 6 ∧
      ByteSize.String v = decimal (v / 1024 ^ k) ++ unitName k ∧
      denote (decimal (v / 1024 ^ k)) = v / 1024 ^ k ∧
      1024 ^ k ∣ v ∧
      (∀ j, j ≤ 6 → 1024 ^ j ∣ v → j ≤ k) ∧
      v / 1024 ^ k * 1024 ^ k = v ∧
      (k ≠ 6 → ¬ 1024 ∣ v / 1024 ^ k)) ∧
    (¬ 1024 ∣ v → ByteSize.String v = decimal v ++ [66]) := by
  refine ⟨rfl, ?_, ?_⟩
  · intro h0
    obtain ⟨k, hk, hS, hdiv, hmax⟩ := String_shape v
    have hd : 1024 ^ k ∣ v := Nat.dvd_of_mod_eq_zero hdiv
    have hqlt : v / 1024 ^ k < 2 ^ 64 :=
      Nat.lt_of_le_of_lt (Nat.div_le_self _ _) (Nat.lt_succ_of_le hv)
    have hnext : k < 6 → ¬ 1024 ^ (k + 1) ∣ v :=
      fun hlt hdvd => hmax h0 hlt (Nat.mod_eq_zero_of_dvd hdvd)
    refine ⟨k, hk, hS, denote_decimal _ hqlt, hd, ?_, Nat.div_mul_cancel hd, ?_⟩
    · intro j hj hjd
      by_contra hlt
      have hk6 : k < 6 := by omega
      exact hnext hk6 (Nat.dvd_trans (Nat.pow_dvd_pow 1024 (by omega)) hjd)
    · intro hk6 hdvd
      apply hnext (by omega)
      obtain ⟨q, hq⟩ := hdvd
      refine ⟨q, ?_⟩
      have := Nat.div_mul_cancel hd
      rw [hq] at this
      rw [Nat.pow_succ, ← this]
      ring
  · intro h1024
    have h0 : v ≠ 0 := by
      intro h; subst h; exact h1024 (Nat.dvd_zero _)
    obtain ⟨k, hk, hS, hdiv, -⟩ := String_shape v
    have hk0 : k = 0 := by
      by_contra hne
      apply h1024
      exact Nat.dvd_trans (dvd_pow_self 1024 hne) (Nat.dvd_of_mod_eq_zero hdiv)
    subst hk0
    simpa [unitName] using hS

/-- The statement of `C2_canonical_form` at the value `100 * MB + KB`. -/
theorem C2_canonical_form_witness :
    ByteSize.String 0 = [48, 66] ∧
    (100 * MB + KB ≠ 0 → ∃ k, k ≤ 6 ∧
      ByteSize.String (100 * MB + KB) = decimal ((100 * MB + KB) / 1024 ^ k) ++ unitName k ∧
      denote (decimal ((100 * MB + KB) / 1024 ^ k)) = (100 * MB + KB) / 1024 ^ k ∧
      1024 ^ k ∣ (100 * MB + KB) ∧
      (∀ j, j ≤ 6 → 1024 ^ j ∣ (100 * MB + KB) → j ≤ k) ∧
      (100 * MB + KB) / 1024 ^ k * 1024 ^ k = 100 * MB + KB ∧
      (k ≠ 6 → ¬ 1024 ∣ (100 * MB + KB) / 1024 ^ k)) ∧
    (¬ 1024 ∣ (100 * MB + KB) → ByteSize.String (100 * MB + KB) = decimal (100 * MB + KB) ++ [66]) :=
  C2_canonical_form (100 * MB + KB) (by decide)

/-- C3. Parser value on success: for every input `D ++ W1 ++ T ++ W2`, where
`D` is a non-empty run of ASCII digits (leading zeros allowed) denoting `N`,
`W1` and `W2` are possibly empty runs of ASCII white space and `T` is a
recognised token with multiplier `m`, if `N * m <= 2^64-1` then `UnmarshalText`
returns no error and stores exactly `N * m`. -/
theorem C3_value_on_success (b : ByteSize) (D W1 T W2 : List Nat) (m : Nat)
    (hD : D ≠ []) (hDd : ∀ c ∈ D, isDigit c = true)
    (hW1 : ∀ c ∈ W1, isAsciiSpace c = true) (hW2 : ∀ c ∈ W2, isAsciiSpace c = true)
    (hT : (T, m) ∈ recognised) (hN : denote D * m ≤ 2 ^ 64 - 1) :
    ByteSize.UnmarshalText b (D ++ W1 ++ T ++ W2) = (denote D * m, none) := by
  obtain ⟨hhead, htrim⟩ := suffix_facts W1 T W2 m hW1 hW2 hT
  have hm : 1 ≤ m := by
    rcases (recognised_facts T m hT).2.2 with h | h
    · omega
    · by_contra hc
      have : m = 0 := by omega
      subst this
      simp [recognised, spellings] at hT
  have hle : denote D ≤ denote D * m := Nat.le_mul_of_pos_right _ hm
  have hlt : denote D < 2 ^ 64 := by omega
  have e : D ++ W1 ++ T ++ W2 = D ++ (W1 ++ T ++ W2) := by simp [List.append_assoc]
  rw [e, UnmarshalText_digits b D _ hD hDd hhead, if_pos hlt, htrim,
    unitSwitch_recognised _ _ T m (by omega) hT, if_pos hN]

/-- The statement of `C3_value_on_success` at the input `20480 G`. -/
theorem C3_value_on_success_witness :
    ByteSize.UnmarshalText 0 ([50, 48, 52, 56, 48] ++ [32] ++ [71] ++ []) =
      (denote [50, 48, 52, 56, 48] * 1024 ^ 3, none) :=
  C3_value_on_success 0 [50, 48, 52, 56, 48] [32] [71] [] (1024 ^ 3) (by decide) (by decide)
    (by decide) (by decide) (by simp [recognised, spellings]) (by decide)

/-- C4. Overflow from the unit multiplier: for every input
`D ++ W1 ++ T ++ W2` with `D` a non-empty digit run denoting `N <= 2^64-1` and
`T` a recognised token with multiplier `m`, if `N * m > 2^64-1` (in unbounded
integers) then `UnmarshalText` returns a range error and stores `2^64-1`, which
is not the wrapped product `N * m mod 2^64`. -/
theorem C4_multiplier_overflow (b : ByteSize) (D W1 T W2 : List Nat) (m : Nat)
    (hD : D ≠ []) (hDd : ∀ c ∈ D, isDigit c = true)
    (hW1 : ∀ c ∈ W1, isAsciiSpace c = true) (hW2 : ∀ c ∈ W2, isAsciiSpace c = true)
    (hT : (T, m) ∈ recognised) (hN : denote D ≤ 2 ^ 64 - 1)
    (hov : denote D * m > 2 ^ 64 - 1) :
    ByteSize.UnmarshalText b (D ++ W1 ++ T ++ W2) =
      (2 ^ 64 - 1, some ⟨"UnmarshalText", D ++ W1 ++ T ++ W2, .ErrRange⟩) ∧
    (ByteSize.UnmarshalText b (D ++ W1 ++ T ++ W2)).1 ≠ (denote D * m) % 2 ^ 64 := by
  obtain ⟨hhead, htrim⟩ := suffix_facts W1 T W2 m hW1 hW2 hT
  have hlt : denote D < 2 ^ 64 := by omega
  have e : D ++ W1 ++ T ++ W2 = D ++ (W1 ++ T ++ W2) := by simp [List.append_assoc]
  have hres : ByteSize.UnmarshalText b (D ++ W1 ++ T ++ W2) =
      (2 ^ 64 - 1, some ⟨"UnmarshalText", D ++ W1 ++ T ++ W2, .ErrRange⟩) := by
    rw [e, UnmarshalText_digits b D _ hD hDd hhead, if_pos hlt, htrim,
      unitSwitch_recognised _ _ T m hN hT, if_neg (by omega)]
    rfl
  refine ⟨hres, ?_⟩
  rw [hres]
  show 2 ^ 64 - 1 ≠ (denote D * m) % 2 ^ 64
  rcases (recognised_facts T m hT).2.2 with h | h
  · subst h; omega
  · have h2 : (denote D * m) % 2 ^ 64 % 2 = 0 := by
      rw [Nat.mod_mod_of_dvd _ (by decide : 2 ∣ 2 ^ 64), Nat.mul_mod, h]
      simp
    intro heq
    rw [← heq] at h2
    exact absurd h2 (by decide)

/-- The statement of `C4_multiplier_overflow` at the input `50 eB`. -/
theorem C4_multiplier_overflow_witness :
    ByteSize.UnmarshalText 0 ([53, 48] ++ [32] ++ [101, 66] ++ []) =
      (2 ^ 64 - 1, some ⟨"UnmarshalText", [53, 48] ++ [32] ++ [101, 66] ++ [], .ErrRange⟩) ∧
    (ByteSize.UnmarshalText 0 ([53, 48] ++ [32] ++ [101, 66] ++ [])).1 ≠
      (denote [53, 48] * 1024 ^ 6) % 2 ^ 64 :=
  C4_multiplier_overflow 0 [53, 48] [32] [101, 66] [] (1024 ^ 6) (by decide) (by decide)
    (by decide) (by decide) (by simp [recognised, spellings]) (by decide) (by decide)

/-- C5. Overflow saturation on the numeric prefix: for every input whose
maximal leading run of ASCII digits denotes a natural number greater than
2^64-1, whatever bytes follow that run, `UnmarshalText` returns a range error
and stores exactly 2^64-1. -/
theorem C5_numeric_overflow (b : ByteSize) (t : List Nat)
    (hN : denote (digitRun t) > 2 ^ 64 - 1) :
    ByteSize.UnmarshalText b t = (2 ^ 64 - 1, some ⟨"UnmarshalText", t, .ErrRange⟩) := by
  have hD : digitRun t ≠ [] := by
    intro h
    rw [h] at hN
    exact absurd hN (by decide)
  have h := UnmarshalText_digits b (digitRun t) (afterDigits t) hD (digitRun_isDigit t)
    (afterDigits_head t)
  rw [digitRun_append_afterDigits, if_neg (by omega)] at h
  rw [h]
  rfl

/-- The statement of `C5_numeric_overflow` at the input `18446744073709551616kBs`. -/
theorem C5_numeric_overflow_witness :
    ByteSize.UnmarshalText 0
        [49, 56, 52, 52, 54, 55, 52, 52, 48, 55, 51, 55, 48, 57, 53, 53, 49, 54, 49, 54,
          107, 66, 115] =
      (2 ^ 64 - 1, some ⟨"UnmarshalText",
        [49, 56, 52, 52, 54, 55, 52, 52, 48, 55, 51, 55, 48, 57, 53, 53, 49, 54, 49, 54,
          107, 66, 115], .ErrRange⟩) :=
  C5_numeric_overflow 0 _ (by decide)

/-- C6. Unrecognised unit is a syntax error: for every input whose leading
digit run is non-empty and denotes `N <= 2^64-1`, if the rest of the input with
the surrounding white space trimmed (by `strings.TrimSpace`) is not one of the
33 recognised tokens, then `UnmarshalText` returns a syntax error and stores 0;
in particular `Kb`, `Mb`, `Gb`, `Tb`, `Pb`, `Eb` and `kBs` after a number are
rejected although `MB`, `mb` and `mB` are accepted. -/
theorem C6_unrecognised_unit (b : ByteSize) :
    (∀ t : List Nat, digitRun t ≠ [] → denote (digitRun t) ≤ 2 ^ 64 - 1 →
      TrimSpace (afterDigits t) ∉ tokens →
      ByteSize.UnmarshalText b t = (0, some ⟨"UnmarshalText", t, .ErrSyntax⟩)) ∧
    (tokens.length = 33 ∧ tokens.Nodup) ∧
    (∀ T ∈ [[75, 98], [77, 98], [71, 98], [84, 98], [80, 98], [69, 98], [107, 66, 115]],
      T ∉ tokens ∧
      ByteSize.UnmarshalText b ([49, 48] ++ T) =
        (0, some ⟨"UnmarshalText", [49, 48] ++ T, .ErrSyntax⟩)) ∧
    (∀ T ∈ [[77, 66], [109, 98], [109, 66]],
      T ∈ tokens ∧ ByteSize.UnmarshalText b ([49, 48] ++ T) = (10 * 1024 ^ 2, none)) := by
  refine ⟨?_, ⟨by decide, by decide⟩, ?_, ?_⟩
  · intro t hD hN hT
    have h := UnmarshalText_digits b (digitRun t) (afterDigits t) hD (digitRun_isDigit t)
      (afterDigits_head t)
    rw [digitRun_append_afterDigits, if_pos (by omega), unitSwitch_unrecognised _ _ _ hT] at h
    rw [h]
    rfl
  · intro T hT
    simp only [List.mem_cons, List.mem_nil_iff, or_false] at hT
    rcases hT with rfl | rfl | rfl | rfl | rfl | rfl | rfl <;> exact ⟨by decide, rfl⟩
  · intro T hT
    simp only [List.mem_cons, List.mem_nil_iff, or_false] at hT
    rcases hT with rfl | rfl | rfl <;> exact ⟨by decide, rfl⟩

/-- The first part of `C6_unrecognised_unit` at the input `10 kBs `. -/
theorem C6_unrecognised_unit_witness :
    ByteSize.UnmarshalText 0 [49, 48, 32, 107, 66, 115, 32] =
      (0, some ⟨"UnmarshalText", [49, 48, 32, 107, 66, 115, 32], .ErrSyntax⟩) :=
  (C6_unrecognised_unit 0).1 [49, 48, 32, 107, 66, 115, 32] (by decide) (by decide) (by decide)

/-- C7. For every non-empty input whose first byte is not an ASCII digit,
`UnmarshalText` returns a syntax error and stores 0, whatever follows the first
byte. -/
theorem C7_first_byte_not_digit (b : ByteSize) (c : Nat) (rest : List Nat)
    (hc : isDigit c = false) :
    ByteSize.UnmarshalText b (c :: rest) =
      (0, some ⟨"UnmarshalText", c :: rest, .ErrSyntax⟩) := by
  unfold ByteSize.UnmarshalText
  rw [ParseLoop_nondigit c rest 0 hc]
  rfl

/-- The statement of `C7_first_byte_not_digit` at the input ` 5` (a space, then
a digit). -/
theorem C7_first_byte_not_digit_witness :
    ByteSize.UnmarshalText 0 (32 :: [53]) =
      (0, some ⟨"UnmarshalText", 32 :: [53], .ErrSyntax⟩) :=
  C7_first_byte_not_digit 0 32 [53] (by decide)

/-- C8. On the empty input the loop body never runs, so the test `i == 0` that
rejects an empty numeric prefix is not reached: the empty unit matches the
first case of the switch and `UnmarshalText` returns no error and stores 0. -/
theorem C8_empty_input_accepted (b : ByteSize) :
    ByteSize.UnmarshalText b [] = (0, none) := rfl

/-- C9. Failure policy: for every input, `UnmarshalText` ends with exactly one
of three outcomes: no error; a syntax error with the stored value 0; a range
error with the stored value 2^64-1. -/
theorem C9_failure_policy (b : ByteSize) (t : List Nat) :
    ((ByteSize.UnmarshalText b t).2 = none ∨
      ((ByteSize.UnmarshalText b t).1 = 0 ∧
        ∃ e, (ByteSize.UnmarshalText b t).2 = some e ∧ e.Err = .ErrSyntax) ∨
      ((ByteSize.UnmarshalText b t).1 = 2 ^ 64 - 1 ∧
        ∃ e, (ByteSize.UnmarshalText b t).2 = some e ∧ e.Err = .ErrRange)) ∧
    ¬ ((ByteSize.UnmarshalText b t).2 = none ∧
        ∃ e, (ByteSize.UnmarshalText b t).2 = some e) ∧
    ¬ ((∃ e, (ByteSize.UnmarshalText b t).2 = some e ∧ e.Err = .ErrSyntax) ∧
        ∃ e, (ByteSize.UnmarshalText b t).2 = some e ∧ e.Err = .ErrRange) := by
  refine ⟨?_, ?_, ?_⟩
  · rcases UnmarshalText_outcome b t with ⟨v, h⟩ | h | h
    · exact Or.inl (by rw [h])
    · exact Or.inr (Or.inl (by rw [h]; exact ⟨rfl, _, rfl, rfl⟩))
    · exact Or.inr (Or.inr (by rw [h]; exact ⟨rfl, _, rfl, rfl⟩))
  · rintro ⟨h1, e, h2⟩
    rw [h1] at h2
    exact Option.noConfusion h2
  · rintro ⟨⟨e1, h1, k1⟩, e2, h2, k2⟩
    rw [h1] at h2
    have := Option.some.inj h2
    subst this
    rw [k1] at k2
    exact ErrKind.noConfusion k2

/-- C10. Full overwrite: for every input `t` and every two prior values `b1`
and `b2` of the receiver, `UnmarshalText` leaves the same stored value and
returns the same error in both runs. -/
theorem C10_full_overwrite (t : List Nat) (b1 b2 : ByteSize) :
    ByteSize.UnmarshalText b1 t = ByteSize.UnmarshalText b2 t := rfl

/-- C11. Error diagnostics: whenever `UnmarshalText` fails (either kind), the
error returned is a `NumError` whose `Num` field is the whole original input
and whose `Func` field is `UnmarshalText`. -/
theorem C11_error_diagnostics (b : ByteSize) (t : List Nat) (e : NumError)
    (h : (ByteSize.UnmarshalText b t).2 = some e) :
    e.Num = t ∧ e.Func = "UnmarshalText" := by
  rcases UnmarshalText_outcome b t with ⟨v, hv⟩ | hv | hv
  · rw [hv] at h
    exact Option.noConfusion h
  · rw [hv] at h
    have := Option.some.inj h
    subst this
    exact ⟨rfl, rfl⟩
  · rw [hv] at h
    have := Option.some.inj h
    subst this
    exact ⟨rfl, rfl⟩

/-- The statement of `C11_error_diagnostics` at the input `10 kBs `. -/
theorem C11_error_diagnostics_witness :
    (⟨"UnmarshalText", [49, 48, 32, 107, 66, 115, 32], .ErrSyntax⟩ : NumError).Num =
        [49, 48, 32, 107, 66, 115, 32] ∧
      (⟨"UnmarshalText", [49, 48, 32, 107, 66, 115, 32], .ErrSyntax⟩ : NumError).Func =
        "UnmarshalText" :=
  C11_error_diagnostics 0 [49, 48, 32, 107, 66, 115, 32]
    ⟨"UnmarshalText", [49, 48, 32, 107, 66, 115, 32], .ErrSyntax⟩ (by decide)

/-- C16. Raw-byte fallback of `HumanReadable`: for every `v <= 1024` (0 and
1024 included), `HumanReadable v` and `HR v` are exactly the decimal text of
`v` followed by a space and `B`, with no fractional part; the decimal text
denotes `v`, so nothing is lost. -/
theorem C16_raw_byte_fallback (fmtF : ByteSize → ByteSize → List Nat) (v : ByteSize)
    (hv : v ≤ 1024) :
    ByteSize.HumanReadable fmtF v = decimal v ++ [32, 66] ∧
    ByteSize.HR fmtF v = decimal v ++ [32, 66] ∧
    denote (decimal v) = v := by
  have hv2 : v < 2 ^ 64 := Nat.lt_of_le_of_lt hv (by decide)
  have h : ByteSize.HumanReadable fmtF v = decimal v ++ [32, 66] := by
    unfold ByteSize.HumanReadable
    rw [EB_eq, PB_eq, TB_eq, GB_eq, MB_eq, KB_eq]
    have h6 : ¬ v > 1024 ^ 6 := Nat.not_lt.2 (Nat.le_trans hv (by decide))
    have h5 : ¬ v > 1024 ^ 5 := Nat.not_lt.2 (Nat.le_trans hv (by decide))
    have h4 : ¬ v > 1024 ^ 4 := Nat.not_lt.2 (Nat.le_trans hv (by decide))
    have h3 : ¬ v > 1024 ^ 3 := Nat.not_lt.2 (Nat.le_trans hv (by decide))
    have h2 : ¬ v > 1024 ^ 2 := Nat.not_lt.2 (Nat.le_trans hv (by decide))
    have h1 : ¬ v > 1024 := Nat.not_lt.2 hv
    rw [if_neg h6, if_neg h5, if_neg h4, if_neg h3, if_neg h2, if_neg h1]
  exact ⟨h, h, denote_decimal v hv2⟩

/-- The statement of `C16_raw_byte_fallback` at the value 1024. -/
theorem C16_raw_byte_fallback_witness :
    ByteSize.HumanReadable (fun _ _ => []) 1024 = decimal 1024 ++ [32, 66] ∧
    ByteSize.HR (fun _ _ => []) 1024 = decimal 1024 ++ [32, 66] ∧
    denote (decimal 1024) = 1024 :=
  C16_raw_byte_fallback (fun _ _ => []) 1024 (by decide)

/-- C17. Unit table: the constants B, KB, MB, GB, TB, PB, EB built by repeated
left shift by 10 are `1024 ^ 0` to `1024 ^ 6`; each shift stays below `2 ^ 64`,
so none wraps (EB is `2 ^ 60`); `maxUint64` is `2 ^ 64 - 1` and `cutoff` is
`(2 ^ 64 - 1) / 10 = 1844674407370955161`. -/
theorem C17_unit_table :
    (B = 1024 ^ 0 ∧ KB = 1024 ^ 1 ∧ MB = 1024 ^ 2 ∧ GB = 1024 ^ 3 ∧ TB = 1024 ^ 4 ∧
      PB = 1024 ^ 5 ∧ EB = 1024 ^ 6) ∧
    (B <<< 10 < 2 ^ 64 ∧ KB <<< 10 < 2 ^ 64 ∧ MB <<< 10 < 2 ^ 64 ∧ GB <<< 10 < 2 ^ 64 ∧
      TB <<< 10 < 2 ^ 64 ∧ PB <<< 10 < 2 ^ 64 ∧ EB = 2 ^ 60) ∧
    maxUint64 = 2 ^ 64 - 1 ∧
    cutoff = (2 ^ 64 - 1) / 10 ∧ cutoff = 1844674407370955161 := by
  decide

/-- C18. Accumulator invariant of the digit loop. Started with accumulator 0
on a run of digits `D`, the loop either has left by `Overflow`, exactly when
the number `D` denotes does not fit in 64 bits, or goes on with the accumulator
equal to that number. On reading one more digit `c` it leaves by `Overflow` if
and only if the number denoted by `D` followed by `c` is at least `2 ^ 64`, and
otherwise goes on with that number. Hence `18446744073709551615` is accepted
with value `2 ^ 64 - 1` and `18446744073709551616` is rejected. -/
theorem C18_accumulator_invariant :
    (∀ (D rest : List Nat) (i : Nat), (∀ x ∈ D, isDigit x = true) →
      ParseLoop (D ++ rest) 0 i =
        if denote D < 2 ^ 64 then ParseLoop rest (denote D) (i + D.length)
        else .Overflow) ∧
    (∀ (D rest : List Nat) (c i : Nat), (∀ x ∈ D, isDigit x = true) → isDigit c = true →
      denote D < 2 ^ 64 →
      ParseLoop (c :: rest) (denote D) i =
        if denote (D ++ [c]) ≥ 2 ^ 64 then .Overflow
        else ParseLoop rest (denote (D ++ [c])) (i + 1)) ∧
    (∀ (D : List Nat) (c : Nat), (∀ x ∈ D, isDigit x = true) → isDigit c = true →
      denote D < 2 ^ 64 →
      (ParseLoop (D ++ [c]) 0 0 = .Overflow ↔ denote (D ++ [c]) ≥ 2 ^ 64)) ∧
    ByteSize.UnmarshalText 0
        [49, 56, 52, 52, 54, 55, 52, 52, 48, 55, 51, 55, 48, 57, 53, 53, 49, 54, 49, 53] =
      (2 ^ 64 - 1, none) ∧
    ByteSize.UnmarshalText 0
        [49, 56, 52, 52, 54, 55, 52, 52, 48, 55, 51, 55, 48, 57, 53, 53, 49, 54, 49, 54] =
      (2 ^ 64 - 1, some ⟨"UnmarshalText",
        [49, 56, 52, 52, 54, 55, 52, 52, 48, 55, 51, 55, 48, 57, 53, 53, 49, 54, 49, 54],
        .ErrRange⟩) := by
  refine ⟨?_, ?_, ?_, by decide, by decide⟩
  · intro D rest i hD
    exact ParseLoop_digits D rest 0 i hD (by decide)
  · intro D rest c i _ hc hlt
    have h := ParseLoop_digits [c] rest (denote D) i
      (fun x hx => by rw [List.mem_singleton] at hx; rw [hx]; exact hc) hlt
    have e : denote (D ++ [c]) = foldDigits (denote D) [c] := foldDigits_append 0 D [c]
    rw [e]
    simp only [List.singleton_append, List.length_singleton] at h
    rw [h]
    by_cases hlt2 : foldDigits (denote D) [c] < 2 ^ 64
    · rw [if_pos hlt2, if_neg (Nat.not_le.2 hlt2)]
    · rw [if_neg hlt2, if_pos (Nat.not_lt.1 hlt2)]
  · intro D c hD hc _
    have hDc : ∀ x ∈ D ++ [c], isDigit x = true := by
      intro x hx
      rcases List.mem_append.1 hx with h | h
      · exact hD x h
      · rw [List.mem_singleton] at h; rw [h]; exact hc
    have h := ParseLoop_digits (D ++ [c]) [] 0 0 hDc (by decide)
    rw [List.append_nil] at h
    rw [h]
    show (if denote (D ++ [c]) < 2 ^ 64 then _ else _) = _ ↔ _
    by_cases hlt2 : denote (D ++ [c]) < 2 ^ 64
    · rw [if_pos hlt2]
      constructor
      · intro hcon
        simp [ParseLoop] at hcon
      · intro hge
        exact absurd hlt2 (Nat.not_lt.2 hge)
    · rw [if_neg hlt2]
      exact ⟨fun _ => Nat.not_lt.1 hlt2, fun _ => rfl⟩

/-- The second part of `C18_accumulator_invariant` at the digits
`1844674407370955161` followed by `6`. -/
theorem C18_accumulator_invariant_witness :
    ParseLoop (54 :: [])
        (denote [49, 56, 52, 52, 54, 55, 52, 52, 48, 55, 51, 55, 48, 57, 53, 53, 49, 54, 49]) 19 =
      if denote ([49, 56, 52, 52, 54, 55, 52, 52, 48, 55, 51, 55, 48, 57, 53, 53, 49, 54, 49]
          ++ [54]) ≥ 2 ^ 64 then .Overflow
      else ParseLoop []
        (denote ([49, 56, 52, 52, 54, 55, 52, 52, 48, 55, 51, 55, 48, 57, 53, 53, 49, 54, 49]
          ++ [54])) (19 + 1) :=
  C18_accumulator_invariant.2.1
    [49, 56, 52, 52, 54, 55, 52, 52, 48, 55, 51, 55, 48, 57, 53, 53, 49, 54, 49] [] 54 19
    (by decide) (by decide) (by decide)

/-- C19. Leading zeros are neutral: for every input `t` whose first byte is an
ASCII digit and every `k`, `UnmarshalText` of `k` bytes `0` followed by `t`
stores the same value and has the same kind of outcome (success, syntax error,
range error) as `UnmarshalText` of `t`; so a run of leading zeros, however
long, never causes a range error. -/
theorem C19_leading_zeros (b : ByteSize) (t : List Nat) (k c : Nat)
    (ht : t.head? = some c) (hc : isDigit c = true) :
    (ByteSize.UnmarshalText b (List.replicate k 48 ++ t)).1 = (ByteSize.UnmarshalText b t).1 ∧
    errKind (ByteSize.UnmarshalText b (List.replicate k 48 ++ t)) =
      errKind (ByteSize.UnmarshalText b t) := by
  have hD := digitRun_ne_nil t c ht hc
  have hz : ∀ x ∈ List.replicate k 48 ++ digitRun t, isDigit x = true := by
    intro x hx
    rcases List.mem_append.1 hx with h | h
    · rw [(List.mem_replicate.1 h).2]; rfl
    · exact digitRun_isDigit t x h
  have hden : denote (List.replicate k 48 ++ digitRun t) = denote (digitRun t) := by
    unfold denote
    rw [foldDigits_append, foldDigits_zeros]
  have h := UnmarshalText_congr b (List.replicate k 48 ++ digitRun t) (digitRun t)
    (afterDigits t) (afterDigits t) (by simp [hD]) hD hz (digitRun_isDigit t)
    (afterDigits_head t) (afterDigits_head t) hden rfl
  rw [List.append_assoc, digitRun_append_afterDigits] at h
  exact h

/-- The statement of `C19_leading_zeros` at the input `5 GB` after three
zeros. -/
theorem C19_leading_zeros_witness :
    (ByteSize.UnmarshalText 0 (List.replicate 3 48 ++ [53, 32, 71, 66])).1 =
      (ByteSize.UnmarshalText 0 [53, 32, 71, 66]).1 ∧
    errKind (ByteSize.UnmarshalText 0 (List.replicate 3 48 ++ [53, 32, 71, 66])) =
      errKind (ByteSize.UnmarshalText 0 [53, 32, 71, 66]) :=
  C19_leading_zeros 0 [53, 32, 71, 66] 3 53 rfl (by decide)

/-- C12. White space around the unit is ignored: for every non-empty digit run
`D`, every byte string `T` that does not start with a digit (with or without
white space at its ends) and all runs `W1`, `W2` of ASCII white space (space,
tab, newline, vertical tab, form feed, carriage return),
`UnmarshalText (D ++ W1 ++ T ++ W2)` stores the same value and has the same
kind of outcome as `UnmarshalText (D ++ T)`; `10 kB ` stores `10 * 1024` as
`10kB` does. -/
theorem C12_whitespace_ignored (b : ByteSize) (D W1 T W2 : List Nat)
    (hD : D ≠ []) (hDd : ∀ c ∈ D, isDigit c = true)
    (hT : ∀ c ∈ T.head?, isDigit c = false)
    (hW1 : ∀ c ∈ W1, isAsciiSpace c = true) (hW2 : ∀ c ∈ W2, isAsciiSpace c = true) :
    ((ByteSize.UnmarshalText b (D ++ W1 ++ T ++ W2)).1 = (ByteSize.UnmarshalText b (D ++ T)).1 ∧
      errKind (ByteSize.UnmarshalText b (D ++ W1 ++ T ++ W2)) =
        errKind (ByteSize.UnmarshalText b (D ++ T))) ∧
    (ByteSize.UnmarshalText b [49, 48, 32, 107, 66, 32] = (10 * 1024, none) ∧
      ByteSize.UnmarshalText b [49, 48, 107, 66] = (10 * 1024, none)) := by
  refine ⟨?_, rfl, rfl⟩
  have hTW : ∀ c ∈ (T ++ W2).head?, isDigit c = false := by
    cases T with
    | nil =>
      simpa using head_append_nodigit W2 []
        (fun c hc => isDigit_false_of_space c (hW2 c hc)) (by simp)
    | cons x T2 =>
      intro c hc
      exact hT c (by simpa using hc)
  have hrest : ∀ c ∈ (W1 ++ T ++ W2).head?, isDigit c = false := by
    rw [List.append_assoc]
    exact head_append_nodigit W1 _ (fun c hc => isDigit_false_of_space c (hW1 c hc)) hTW
  have e : D ++ W1 ++ T ++ W2 = D ++ (W1 ++ T ++ W2) := by simp [List.append_assoc]
  rw [e]
  exact UnmarshalText_congr b D D (W1 ++ T ++ W2) T hD hD hDd hDd hrest hT rfl
    (TrimSpace_pad_any W1 T W2 hW1 hW2)

/-- The statement of `C12_whitespace_ignored` at the input `10 kBs ` (a tab
before the unit and a space after it), which is rejected as `10kBs` is. -/
theorem C12_whitespace_ignored_witness :
    ((ByteSize.UnmarshalText 0 ([49, 48] ++ [9] ++ [107, 66, 115] ++ [32])).1 =
        (ByteSize.UnmarshalText 0 ([49, 48] ++ [107, 66, 115])).1 ∧
      errKind (ByteSize.UnmarshalText 0 ([49, 48] ++ [9] ++ [107, 66, 115] ++ [32])) =
        errKind (ByteSize.UnmarshalText 0 ([49, 48] ++ [107, 66, 115]))) ∧
    (ByteSize.UnmarshalText 0 [49, 48, 32, 107, 66, 32] = (10 * 1024, none) ∧
      ByteSize.UnmarshalText 0 [49, 48, 107, 66] = (10 * 1024, none)) :=
  C12_whitespace_ignored 0 [49, 48] [9] [107, 66, 115] [32] (by decide) (by decide)
    (by decide) (by decide) (by decide)

/-- C13, as stated, fails: `Mb` is obtained from the recognised token `MB` by
changing the case of one letter, yet `10MB` is accepted and stores
`10 * 1024 ^ 2` while `10Mb` is a syntax error and stores 0. -/
theorem C13_counterexample :
    ([77, 66], 1024 ^ 2) ∈ recognised ∧ [77, 98] ∈ caseVariants [77, 66] ∧
    ByteSize.UnmarshalText 0 ([49, 48] ++ [77, 66]) = (10 * 1024 ^ 2, none) ∧
    ByteSize.UnmarshalText 0 ([49, 48] ++ [77, 98]) =
      (0, some ⟨"UnmarshalText", [49, 48] ++ [77, 98], .ErrSyntax⟩) := by
  decide

/-- C13, amended. Unit matching ignores case except for the six spellings
`Kb`, `Mb`, `Gb`, `Tb`, `Pb`, `Eb`: for every recognised token `T`, every
non-empty in-range digit run `D` and every `T2` obtained from `T` by changing
the case of any of its letters, if `T2` is not one of the six then
`UnmarshalText (D ++ T2)` stores the same value and has the same kind of
outcome as `UnmarshalText (D ++ T)`; if it is one of them,
`UnmarshalText (D ++ T2)` returns a syntax error and stores 0. -/
theorem C13_case_variants (b : ByteSize) (D T T2 : List Nat) (m : Nat)
    (hD : D ≠ []) (hDd : ∀ c ∈ D, isDigit c = true) (hN : denote D ≤ 2 ^ 64 - 1)
    (hT : (T, m) ∈ recognised) (hT2 : T2 ∈ caseVariants T) :
    (T2 ∉ upperLower →
      (ByteSize.UnmarshalText b (D ++ T2)).1 = (ByteSize.UnmarshalText b (D ++ T)).1 ∧
      errKind (ByteSize.UnmarshalText b (D ++ T2)) =
        errKind (ByteSize.UnmarshalText b (D ++ T))) ∧
    (T2 ∈ upperLower →
      ByteSize.UnmarshalText b (D ++ T2) =
        (0, some ⟨"UnmarshalText", D ++ T2, .ErrSyntax⟩)) := by
  constructor
  · intro hnot
    have hrec : (T2, m) ∈ recognised := by
      rcases caseVariants_recognised (T, m) hT T2 hT2 with h | h
      · exact h
      · exact absurd h hnot
    rw [UnmarshalText_recognised b D T2 m hD hDd hN hrec,
      UnmarshalText_recognised b D T m hD hDd hN hT]
    by_cases h : denote D * m ≤ 2 ^ 64 - 1
    · rw [if_pos h, if_pos h]
      exact ⟨rfl, rfl⟩
    · rw [if_neg h, if_neg h]
      exact ⟨rfl, rfl⟩
  · intro hin
    obtain ⟨hnot, hends, hhead⟩ := upperLower_facts T2 hin
    have htrim : TrimSpace T2 = T2 := by
      have := TrimSpace_pad [] T2 [] (by simp) (by simp) hends
      simpa using this
    rw [UnmarshalText_digits b D T2 hD hDd hhead, if_pos (by omega), htrim,
      unitSwitch_unrecognised _ _ _ hnot]
    rfl

/-- The statement of `C13_case_variants` at `5` followed by `gB`, a variant of
`GB`. -/
theorem C13_case_variants_witness :
    ([103, 66] ∉ upperLower →
      (ByteSize.UnmarshalText 0 ([53] ++ [103, 66])).1 =
        (ByteSize.UnmarshalText 0 ([53] ++ [71, 66])).1 ∧
      errKind (ByteSize.UnmarshalText 0 ([53] ++ [103, 66])) =
        errKind (ByteSize.UnmarshalText 0 ([53] ++ [71, 66]))) ∧
    ([103, 66] ∈ upperLower →
      ByteSize.UnmarshalText 0 ([53] ++ [103, 66]) =
        (0, some ⟨"UnmarshalText", [53] ++ [103, 66], .ErrSyntax⟩)) :=
  C13_case_variants 0 [53] [71, 66] [103, 66] (1024 ^ 3) (by decide) (by decide) (by decide)
    (by simp [recognised, spellings]) (by decide)

/-- C15, as stated, fails: for `v = 2 * MB` the smallest unit among KB to EB
whose multiplier is below `v` is KB, yet the text does not end with a space
followed by `KB`, whatever `%f` writes: it ends with `.1 MB`. -/
theorem C15_counterexample :
    (1024 < 2 * MB ∧ 1024 ^ 1 < 2 * MB ∧ ∀ j, 1 ≤ j → 1024 ^ j < 2 * MB → 1 ≤ j) ∧
    (¬ ∃ (fmtF : ByteSize → ByteSize → List Nat) (pre : List Nat),
      ByteSize.HumanReadable fmtF (2 * MB) = pre ++ [32] ++ unitName 1) ∧
    (∀ fmtF : ByteSize → ByteSize → List Nat,
      ByteSize.HumanReadable fmtF (2 * MB) = fmtF (2 * MB) MB ++ [46, 49] ++ [32] ++ unitName 2) := by
  have hform : ∀ fmtF : ByteSize → ByteSize → List Nat,
      ByteSize.HumanReadable fmtF (2 * MB) =
        fmtF (2 * MB) MB ++ [46, 49] ++ [32] ++ unitName 2 := by
    intro fmtF
    unfold ByteSize.HumanReadable
    rw [if_neg (by decide), if_neg (by decide), if_neg (by decide), if_neg (by decide),
      if_pos (by decide)]
    simp [unitName]
  refine ⟨⟨by decide, by decide, fun j hj _ => hj⟩, ?_, hform⟩
  rintro ⟨fmtF, pre, h⟩
  rw [hform fmtF] at h
  have h2 := congrArg List.reverse h
  simp [unitName] at h2

/-- C15, amended. Unit choice of `HumanReadable`: for every `v > 1024` the
text is what `%f` writes, then `.1`, a single space and the name of a unit
among KB to EB; that unit is the largest one whose multiplier is strictly less
than `v` (the cases are scanned from EB downward). -/
theorem C15_largest_unit (fmtF : ByteSize → ByteSize → List Nat) (v : ByteSize)
    (hv : v > 1024) :
    ∃ k, 1 ≤ k ∧ k ≤ 6 ∧
      ByteSize.HumanReadable fmtF v = fmtF v (1024 ^ k) ++ [46, 49] ++ [32] ++ unitName k ∧
      1024 ^ k < v ∧ (∀ j, 1 ≤ j → j ≤ 6 → 1024 ^ j < v → j ≤ k) := by
  have hmono : ∀ j k : Nat, 1024 ^ j < v → ¬ v > 1024 ^ (k + 1) → j ≤ k := by
    intro j k hj hk
    by_contra hlt
    have : 1024 ^ (k + 1) ≤ 1024 ^ j := Nat.pow_le_pow_right (by decide) (by omega)
    exact hk (Nat.lt_of_le_of_lt this hj)
  unfold ByteSize.HumanReadable
  rw [EB_eq, PB_eq, TB_eq, GB_eq, MB_eq, KB_eq]
  by_cases h6 : v > 1024 ^ 6
  · rw [if_pos h6]
    exact ⟨6, by decide, by decide, by simp [unitName], h6, fun j _ hj _ => hj⟩
  rw [if_neg h6]
  by_cases h5 : v > 1024 ^ 5
  · rw [if_pos h5]
    exact ⟨5, by decide, by decide, by simp [unitName], h5, fun j _ _ hj => hmono j 5 hj h6⟩
  rw [if_neg h5]
  by_cases h4 : v > 1024 ^ 4
  · rw [if_pos h4]
    exact ⟨4, by decide, by decide, by simp [unitName], h4, fun j _ _ hj => hmono j 4 hj h5⟩
  rw [if_neg h4]
  by_cases h3 : v > 1024 ^ 3
  · rw [if_pos h3]
    exact ⟨3, by decide, by decide, by simp [unitName], h3, fun j _ _ hj => hmono j 3 hj h4⟩
  rw [if_neg h3]
  by_cases h2 : v > 1024 ^ 2
  · rw [if_pos h2]
    exact ⟨2, by decide, by decide, by simp [unitName], h2, fun j _ _ hj => hmono j 2 hj h3⟩
  rw [if_neg h2, if_pos hv]
  exact ⟨1, by decide, by decide, by simp [unitName], by simpa using hv,
    fun j _ _ hj => hmono j 1 hj h2⟩

/-- The statement of `C15_largest_unit` at the value `2 * MB`. -/
theorem C15_largest_unit_witness :
    ∃ k, 1 ≤ k ∧ k ≤ 6 ∧
      ByteSize.HumanReadable (fun _ _ => [50]) (2 * MB) =
        (fun _ _ => [50]) (2 * MB) (1024 ^ k) ++ [46, 49] ++ [32] ++ unitName k ∧
      1024 ^ k < 2 * MB ∧ (∀ j, 1 ≤ j → j ≤ 6 → 1024 ^ j < 2 * MB → j ≤ k) :=
  C15_largest_unit (fun _ _ => [50]) (2 * MB) (by decide)

/-- C14, as stated, fails: `UnmarshalText` accepts the one-byte text `1` and
stores 1, and `String 1` is `1B`, which is longer. -/
theorem C14_counterexample :
    ByteSize.UnmarshalText 0 [49] = (1, none) ∧ ByteSize.String 1 = [49, 66] ∧
    ¬ ((ByteSize.String 1).length ≤ [49].length) := by
  decide

/-- C14, amended. The canonical text always names its unit in full, so it can
be one byte longer than a text that parses to the same value but never more:
for every `v` and every non-empty input `t` on which `UnmarshalText` succeeds
and stores `v`, the length of `String v` is at most the length of `t` plus
one. -/
theorem C14_canonical_length (b : ByteSize) (v : Nat) (t : List Nat) (ht : t ≠ [])
    (h : ByteSize.UnmarshalText b t = (v, none)) :
    (ByteSize.String v).length ≤ t.length + 1 := by
  obtain ⟨j, hj, hD, hv, hlen0, hlen1⟩ := UnmarshalText_success b t v ht h
  have hL : 1 ≤ (digitRun t).length := by
    cases hd : digitRun t with
    | nil => exact absurd hd hD
    | cons x r => simp
  have hN := denote_lt (digitRun t) (digitRun_isDigit t)
  have htlen : (digitRun t).length ≤ t.length := by
    by_cases hj0 : j = 0
    · exact hlen0 hj0
    · exact Nat.le_trans (Nat.le_succ _) (hlen1 hj0)
  by_cases h0 : v = 0
  · subst h0
    show 2 ≤ t.length + 1
    omega
  obtain ⟨k, hk, hS, hdiv, hmax⟩ := String_shape v
  have hd : 1024 ^ k ∣ v := Nat.dvd_of_mod_eq_zero hdiv
  have hq : v / 1024 ^ k * 1024 ^ k = v := Nat.div_mul_cancel hd
  have hname : (unitName k).length ≤ 2 ∧ (k = 0 → (unitName k).length = 1) := by
    interval_cases k <;> exact ⟨by decide, by decide⟩
  have hjk : j ≤ k := by
    by_contra hlt
    have hk6 : k < 6 := by omega
    apply hmax h0 hk6
    apply Nat.mod_eq_zero_of_dvd
    have h1 : 1024 ^ (k + 1) ∣ 1024 ^ j := Nat.pow_dvd_pow 1024 (by omega)
    exact Nat.dvd_trans h1 ⟨denote (digitRun t), by rw [hv, Nat.mul_comm]⟩
  have hqN : v / 1024 ^ k ≤ denote (digitRun t) := by
    have hpow : 1024 ^ j ≤ 1024 ^ k := Nat.pow_le_pow_right (by decide) hjk
    have h1 : v / 1024 ^ k * 1024 ^ k ≤ denote (digitRun t) * 1024 ^ k := by
      rw [hq, hv]
      exact Nat.mul_le_mul_left _ hpow
    exact Nat.le_of_mul_le_mul_right h1 (Nat.pos_pow_of_pos k (by decide))
  have hdigits : (decimal (v / 1024 ^ k)).length ≤ (digitRun t).length :=
    length_decimal_le _ _ hL (Nat.lt_of_le_of_lt hqN hN)
  rw [hS, List.length_append]
  by_cases hj0 : j = 0
  · by_cases hk0 : k = 0
    · have := hname.2 hk0
      omega
    · -- the text has no unit, the canonical one has: a division by 1024 or more
      -- takes away at least one digit
      subst hj0
      rw [Nat.pow_zero, Nat.mul_one] at hv
      have hq0 : v / 1024 ^ k ≠ 0 := by
        intro hz
        rw [hz, Nat.zero_mul] at hq
        exact h0 hq.symm
      have h10 : 10 ≤ 1024 ^ k := by
        have : 1024 ^ 1 ≤ 1024 ^ k := Nat.pow_le_pow_right (by decide) (by omega)
        omega
      have hq10 : v / 1024 ^ k * 10 ≤ v := by
        calc v / 1024 ^ k * 10 ≤ v / 1024 ^ k * 1024 ^ k := Nat.mul_le_mul_left _ h10
          _ = v := hq
      have hL2 : 2 ≤ (digitRun t).length := by
        by_contra hc
        have e1 : (digitRun t).length = 1 := by omega
        rw [e1] at hN
        omega
      have e : (digitRun t).length = ((digitRun t).length - 1) + 1 := by omega
      have hlt : v / 1024 ^ k < 10 ^ ((digitRun t).length - 1) := by
        rw [e, Nat.pow_succ, ← hv] at hN
        have : v / 1024 ^ k * 10 < 10 ^ ((digitRun t).length - 1) * 10 :=
          Nat.lt_of_le_of_lt hq10 hN
        exact Nat.lt_of_mul_lt_mul_right this
      have := length_decimal_le (v / 1024 ^ k) ((digitRun t).length - 1) (by omega) hlt
      omega
  · have := hlen1 hj0
    omega

/-- The statement of `C14_canonical_length` at the input `1K`, which stores
1024: `1KB` is one byte longer. -/
theorem C14_canonical_length_witness :
    (ByteSize.String 1024).length ≤ [49, 75].length + 1 :=
  C14_canonical_length 0 1024 [49, 75] (by decide) (by decide)
